import Mathlib

/-!
Verification of the kedro-mlflow partitioned-dataset core
(`kedro_mlflow/io/partitioned/mlflow_partitioned_dataset.py`,
`kedro_mlflow/framework/hooks/mlflow_partitioned_hook.py`,
`kedro_mlflow/utils.py`) against its natural-language specification.

Python dictionaries are embedded as association lists (`List (κ × ν)`):
`getEntry` is `d[k]` / `k in d` lookup (first match), `setEntry` is
`d[k] = v` (replace in place, else append), which matches insertion-order
semantics of Python dicts built without duplicate keys.  The mlflow run
store is embedded as a list of runs in creation order; `mlflow.search_runs`
filtered on a tag is embedded as a filter over that list.
-/

namespace KedroMlflow

/-! ## Generic dictionary operations (embedding of Python `dict`) -/

/-- Left-biased choice on options (used to express lookup in concatenated
entry sequences). -/
def orO {ν : Type} : Option ν → Option ν → Option ν
  | some v, _ => some v
  | none, b => b

@[simp] theorem orO_some {ν : Type} (v : ν) (b : Option ν) :
    orO (some v) b = some v := rfl

@[simp] theorem orO_none {ν : Type} (b : Option ν) : orO none b = b := rfl

/-- Python dict lookup `d.get(k)` / `k in d`: first entry with the key. -/
def getEntry {κ ν : Type} [DecidableEq κ] : List (κ × ν) → κ → Option ν
  | [], _ => none
  | p :: rest, k => if p.1 = k then some p.2 else getEntry rest k

/-- Python dict assignment `d[k] = v`: replace the entry in place if the key
is present, otherwise append a new entry (insertion order preserved). -/
def setEntry {κ ν : Type} [DecidableEq κ] (m : List (κ × ν)) (k : κ) (v : ν) :
    List (κ × ν) :=
  if m.any (fun p => p.1 = k) then
    m.map (fun p => if p.1 = k then (k, v) else p)
  else m ++ [(k, v)]

/-- Python dict `d.pop(k, None)`: drop all entries with the key. -/
def eraseEntry {κ ν : Type} [DecidableEq κ] (m : List (κ × ν)) (k : κ) :
    List (κ × ν) :=
  m.filter (fun p => p.1 ≠ k)

/-- The value of the last entry with the given key, if any.  This is what a
Python dict built from an entry sequence holds for the key (later writes
overwrite earlier ones). -/
def findLast {κ ν : Type} [DecidableEq κ] (l : List (κ × ν)) (k : κ) :
    Option ν :=
  getEntry l.reverse k

/-- Building a Python dict from a sequence of key-value pairs (as in
`pandas.Series.to_dict()`: iterate the rows, later rows overwrite earlier
rows with the same key). -/
def toDict {κ ν : Type} [DecidableEq κ] (l : List (κ × ν)) : List (κ × ν) :=
  l.foldl (fun m p => setEntry m p.1 p.2) []

/-- Number of entries carrying a given key. -/
def countKey {κ ν : Type} [DecidableEq κ] (m : List (κ × ν)) (k : κ) : Nat :=
  (m.filter (fun p => p.1 = k)).length

section DictLemmas

variable {κ ν : Type} [DecidableEq κ]

theorem getEntry_append (a b : List (κ × ν)) (k : κ) :
    getEntry (a ++ b) k = orO (getEntry a k) (getEntry b k) := by
  induction a with
  | nil => simp [getEntry]
  | cons p rest ih =>
    simp only [List.cons_append, getEntry]
    by_cases hp : p.1 = k
    · simp [hp]
    · simp [hp, ih]

theorem getEntry_eq_none_iff (m : List (κ × ν)) (k : κ) :
    getEntry m k = none ↔ ∀ p ∈ m, p.1 ≠ k := by
  induction m with
  | nil => simp [getEntry]
  | cons p rest ih =>
    simp only [getEntry]
    by_cases hp : p.1 = k
    · simp [hp]
    · simp [hp, ih]

theorem any_key_eq_true_iff (m : List (κ × ν)) (k : κ) :
    (m.any (fun p => p.1 = k)) = true ↔ ∃ p ∈ m, p.1 = k := by
  simp

theorem getEntry_map_replace (m : List (κ × ν)) (k k' : κ) (v : ν)
    (hne : k' ≠ k) :
    getEntry (m.map (fun p => if p.1 = k then (k, v) else p)) k' =
      getEntry m k' := by
  induction m with
  | nil => rfl
  | cons p rest ih =>
    simp only [List.map_cons, getEntry]
    by_cases hp : p.1 = k
    · simp only [hp, if_true, getEntry]
      rw [if_neg (Ne.symm hne), if_neg (Ne.symm hne)]
      exact ih
    · simp only [hp, if_false, getEntry]
      by_cases hp' : p.1 = k'
      · simp [hp']
      · simp [hp', ih]

theorem getEntry_setEntry_self (m : List (κ × ν)) (k : κ) (v : ν) :
    getEntry (setEntry m k v) k = some v := by
  unfold setEntry
  by_cases hany : (m.any (fun p => p.1 = k)) = true
  · rw [if_pos hany]
    rw [any_key_eq_true_iff] at hany
    induction m with
    | nil => simp at hany
    | cons p rest ih =>
      simp only [List.map_cons, getEntry]
      by_cases hp : p.1 = k
      · simp [hp, getEntry]
      · simp only [hp, if_false]
        rcases hany with ⟨q, hq, hk⟩
        rcases List.mem_cons.mp hq with rfl | hq
        · exact absurd hk hp
        · exact ih ⟨q, hq, hk⟩
  · rw [if_neg hany]
    rw [getEntry_append]
    have : getEntry m k = none := by
      rw [getEntry_eq_none_iff]
      intro p hp
      intro hc
      exact hany ((any_key_eq_true_iff m k).mpr ⟨p, hp, hc⟩)
    simp [this, getEntry]

theorem getEntry_setEntry_ne (m : List (κ × ν)) (k k' : κ) (v : ν)
    (hne : k' ≠ k) :
    getEntry (setEntry m k v) k' = getEntry m k' := by
  unfold setEntry
  by_cases hany : (m.any (fun p => p.1 = k)) = true
  · rw [if_pos hany]
    exact getEntry_map_replace m k k' v hne
  · rw [if_neg hany, getEntry_append]
    cases hg : getEntry m k' with
    | some v' => simp
    | none => simp [getEntry, Ne.symm hne]

@[simp] theorem findLast_nil (k : κ) : findLast ([] : List (κ × ν)) k = none :=
  rfl

theorem findLast_cons (p : κ × ν) (rest : List (κ × ν)) (k : κ) :
    findLast (p :: rest) k =
      orO (findLast rest k) (if p.1 = k then some p.2 else none) := by
  unfold findLast
  rw [List.reverse_cons, getEntry_append]
  cases getEntry rest.reverse k <;> simp [getEntry]

theorem findLast_append (a b : List (κ × ν)) (k : κ) :
    findLast (a ++ b) k = orO (findLast b k) (findLast a k) := by
  unfold findLast
  rw [List.reverse_append, getEntry_append]

theorem findLast_eq_none_iff (m : List (κ × ν)) (k : κ) :
    findLast m k = none ↔ ∀ p ∈ m, p.1 ≠ k := by
  unfold findLast
  rw [getEntry_eq_none_iff]
  constructor
  · intro h p hp
    exact h p (List.mem_reverse.mpr hp)
  · intro h p hp
    exact h p (List.mem_reverse.mp hp)

/-- Lookup in a Python dict built from an entry sequence yields the value of
the last occurrence of the key in the sequence. -/
theorem getEntry_toDict (l : List (κ × ν)) (k : κ) :
    getEntry (toDict l) k = findLast l k := by
  have key : ∀ (l m : List (κ × ν)),
      getEntry (l.foldl (fun m p => setEntry m p.1 p.2) m) k =
        orO (findLast l k) (getEntry m k) := by
    intro l
    induction l with
    | nil => intro m; simp
    | cons p rest ih =>
      intro m
      rw [List.foldl_cons, ih, findLast_cons]
      cases hr : findLast rest k with
      | some v => simp
      | none =>
        by_cases hp : p.1 = k
        · subst hp
          simp [getEntry_setEntry_self]
        · simp [hp, getEntry_setEntry_ne m _ k p.2 (fun h => hp h.symm)]
  unfold toDict
  rw [key l []]
  cases findLast l k <;> simp [getEntry]

theorem countKey_append (a b : List (κ × ν)) (k : κ) :
    countKey (a ++ b) k = countKey a k + countKey b k := by
  unfold countKey
  rw [List.filter_append, List.length_append]

theorem countKey_eq_zero_iff (m : List (κ × ν)) (k : κ) :
    countKey m k = 0 ↔ ∀ p ∈ m, p.1 ≠ k := by
  unfold countKey
  rw [List.length_eq_zero, List.filter_eq_nil_iff]
  simp

theorem countKey_map_replace (m : List (κ × ν)) (k k' : κ) (v : ν) :
    countKey (m.map (fun p => if p.1 = k then (k, v) else p)) k' =
      countKey m k' := by
  induction m with
  | nil => rfl
  | cons p rest ih =>
    unfold countKey at *
    simp only [List.map_cons, List.filter_cons]
    have hcond : (decide ((if p.1 = k then (k, v) else p).1 = k')) =
        (decide (p.1 = k')) := by
      by_cases hp : p.1 = k
      · simp [hp]
      · simp [hp]
    rw [hcond]
    by_cases hp' : p.1 = k'
    · have h1 : (decide (p.1 = k')) = true := by simpa using hp'
      rw [h1]
      simp [ih]
    · have h1 : (decide (p.1 = k')) = false := by simpa using hp'
      rw [h1]
      simp [ih]

theorem countKey_setEntry (m : List (κ × ν)) (k k' : κ) (v : ν) :
    countKey (setEntry m k v) k' =
      if (m.any (fun p => p.1 = k)) = true then countKey m k'
      else countKey m k' + (if k' = k then 1 else 0) := by
  unfold setEntry
  by_cases hany : (m.any (fun p => p.1 = k)) = true
  · rw [if_pos hany, if_pos hany]
    exact countKey_map_replace m k k' v
  · rw [if_neg hany, if_neg hany, countKey_append]
    unfold countKey
    by_cases hk : k' = k
    · rw [if_pos hk]
      simp [List.filter_cons, hk]
    · rw [if_neg hk]
      have : ¬ (k = k') := fun h => hk h.symm
      simp [List.filter_cons, this]

theorem getEntry_isSome_iff (m : List (κ × ν)) (k : κ) :
    (getEntry m k).isSome = true ↔ ∃ p ∈ m, p.1 = k := by
  induction m with
  | nil => simp [getEntry]
  | cons p rest ih =>
    simp only [getEntry]
    by_cases hp : p.1 = k
    · simp [hp]
    · simp [hp, ih]

theorem findLast_isSome_iff (m : List (κ × ν)) (k : κ) :
    (findLast m k).isSome = true ↔ ∃ p ∈ m, p.1 = k := by
  unfold findLast
  rw [getEntry_isSome_iff]
  simp [List.mem_reverse]

/-- A dict built from an entry sequence holds at most one entry per key:
exactly one when the sequence mentions the key, zero otherwise. -/
theorem countKey_toDict (l : List (κ × ν)) (k : κ) :
    countKey (toDict l) k = if (findLast l k).isSome = true then 1 else 0 := by
  have key : ∀ (l m : List (κ × ν)),
      countKey m k ≤ 1 →
      ((getEntry m k).isSome = true ↔ countKey m k = 1) →
      countKey (l.foldl (fun m p => setEntry m p.1 p.2) m) k =
        if (findLast l k).isSome = true then 1 else countKey m k := by
    intro l
    induction l with
    | nil => intro m _ _; simp
    | cons p rest ih =>
      intro m hm hiff
      rw [List.foldl_cons]
      have hset : countKey (setEntry m p.1 p.2) k =
          if (m.any (fun q => q.1 = p.1)) = true then countKey m k
          else countKey m k + (if k = p.1 then 1 else 0) :=
        countKey_setEntry m p.1 k p.2
      have hle : countKey (setEntry m p.1 p.2) k ≤ 1 := by
        rw [hset]
        by_cases hany : (m.any (fun q => q.1 = p.1)) = true
        · rw [if_pos hany]; exact hm
        · rw [if_neg hany]
          by_cases hk : k = p.1
          · rw [if_pos hk]
            have hz : countKey m k = 0 := by
              rw [countKey_eq_zero_iff]
              intro q hq hc
              exact hany ((any_key_eq_true_iff m p.1).mpr ⟨q, hq, hk ▸ hc⟩)
            omega
          · rw [if_neg hk]; omega
      have hget : (getEntry (setEntry m p.1 p.2) k).isSome = true ↔
          countKey (setEntry m p.1 p.2) k = 1 := by
        by_cases hk : k = p.1
        · constructor
          · intro _
            rw [hset]
            by_cases hany : (m.any (fun q => q.1 = p.1)) = true
            · rw [if_pos hany, ← hiff, getEntry_isSome_iff]
              rcases (any_key_eq_true_iff m p.1).mp hany with ⟨q, hq, hqk⟩
              exact ⟨q, hq, hk ▸ hqk⟩
            · rw [if_neg hany, if_pos hk]
              have hz : countKey m k = 0 := by
                rw [countKey_eq_zero_iff]
                intro q hq hc
                exact hany ((any_key_eq_true_iff m p.1).mpr ⟨q, hq, hk ▸ hc⟩)
              omega
          · intro _
            rw [hk, getEntry_setEntry_self]
            simp
        · rw [getEntry_setEntry_ne m p.1 k p.2 hk, hset]
          by_cases hany : (m.any (fun q => q.1 = p.1)) = true
          · rw [if_pos hany]; exact hiff
          · rw [if_neg hany, if_neg hk]
            simpa using hiff
      rw [ih _ hle hget, findLast_cons]
      cases hr : findLast rest k with
      | some v => simp
      | none =>
        simp only [orO_none, Option.isSome_none, Bool.false_eq_true, if_false]
        by_cases hp : p.1 = k
        · rw [if_pos hp]
          simp only [Option.isSome_some, if_true]
          rw [hset]
          by_cases hany : (m.any (fun q => q.1 = p.1)) = true
          · rw [if_pos hany, ← hiff, getEntry_isSome_iff]
            rcases (any_key_eq_true_iff m p.1).mp hany with ⟨q, hq, hqk⟩
            exact ⟨q, hq, hp ▸ hqk⟩
          · rw [if_neg hany, if_pos hp.symm]
            have hz : countKey m k = 0 := by
              rw [countKey_eq_zero_iff]
              intro q hq hc
              exact hany ((any_key_eq_true_iff m p.1).mpr ⟨q, hq, hp ▸ hc⟩)
            omega
        · rw [if_neg hp]
          simp only [Option.isSome_none, Bool.false_eq_true, if_false]
          rw [hset]
          by_cases hany : (m.any (fun q => q.1 = p.1)) = true
          · rw [if_pos hany]
          · rw [if_neg hany, if_neg (fun h : k = p.1 => hp h.symm)]
            omega
  have := key l [] (by simp [countKey]) (by simp [countKey, getEntry])
  unfold toDict
  rw [this]
  split <;> rfl

end DictLemmas

/-! ## The mlflow run store and `MlflowPartitionedDataSet`
(`kedro_mlflow/io/partitioned/mlflow_partitioned_dataset.py`) -/

/-- `mlflow.utils.mlflow_tags.MLFLOW_PARENT_RUN_ID`. -/
def MLFLOW_PARENT_RUN_ID : String := "mlflow.parentRunId"

/-- `mlflow.utils.mlflow_tags.MLFLOW_RUN_NAME`. -/
def MLFLOW_RUN_NAME : String := "mlflow.runName"

/-- Tags of a run: a Python dict from tag key to tag value. -/
abbrev Tags := List (String × String)

/-- An mlflow run: its store-assigned id and its tag dict. -/
structure Run where
  runId : String
  tags : Tags
deriving DecidableEq

/-- The mlflow tracking store: runs in creation order, plus a counter used
to mint fresh run ids. -/
structure Store where
  runs : List Run
  nextId : Nat
deriving DecidableEq

/-- Run id minted by the store for the next created run. -/
def freshRunId (st : Store) : String := "run-" ++ toString st.nextId

/-- `mlflow.search_runs(filter_string=f'tags.mlflow.parentRunId="{pid}"')`:
all runs of the store whose parent-run-id tag equals `pid`, in the store's
returned order. -/
def searchRuns (st : Store) (pid : String) : List Run :=
  st.runs.filter (fun r => getEntry r.tags MLFLOW_PARENT_RUN_ID == some pid)

/-- The `(run name tag, run id)` rows of the search result, as selected by
`runs[[MLFLOW_RUN_ID, PREF_MLFLOW_RUN_NAME]]` in `find_children`.  A run
without a run-name tag yields a `none` key (pandas `NaN`). -/
def childRows (st : Store) (pid : String) : List (Option String × String) :=
  (searchRuns st pid).map (fun r => (getEntry r.tags MLFLOW_RUN_NAME, r.runId))

/-- `MlflowPartitionedDataSet.find_children`: searches the store for runs
tagged with the parent's id; raises a `DataSetError` when the search result
is empty; otherwise returns the pandas `to_dict()` of run-name to run-id
(later rows overwrite earlier rows with the same name). -/
def find_children (st : Store) (pid : String) :
    Except String (List (Option String × String)) :=
  if (childRows st pid).isEmpty then
    Except.error ("No child runs found for parent run " ++ pid)
  else
    Except.ok (toDict (childRows st pid))

/-- The tag dict passed to `mlflow.start_run` when `start_child_run` creates
a new child run: a copy of the parent's tags with any inherited run-name tag
popped and the parent-run-id tag set to the parent's id. -/
def childStartTags (parent : Run) : Tags :=
  setEntry (eraseEntry parent.tags MLFLOW_RUN_NAME) MLFLOW_PARENT_RUN_ID
    parent.runId

/-- Creation of a child run by `mlflow.start_run(run_name=partition,
nested=True, tags=_ProtectedDict(tags, {MLFLOW_PARENT_RUN_ID}))`: mlflow
adds the run-name tag for `run_name`; its attempt to overwrite the
parent-run-id tag with the ambient active run is dropped by the protected
dict, so the parent-run-id tag stays the parent's id.  Returns the new run
id and the store extended with the new run. -/
def createChildRun (st : Store) (parent : Run) (partition : String) :
    String × Store :=
  let tags := setEntry (childStartTags parent) MLFLOW_RUN_NAME partition
  let rid := freshRunId st
  (rid, ⟨st.runs ++ [⟨rid, tags⟩], st.nextId + 1⟩)

/-- `MlflowPartitionedDataSet.start_child_run`: looks the partition up in
`find_children` (a raised `DataSetError` is swallowed); if a child run with
that name exists, re-opens it (`mlflow.start_run(run_id=..., nested=True)`,
which leaves the store unchanged) and returns its id; otherwise creates a
new child run. -/
def start_child_run (st : Store) (parent : Run) (partition : String) :
    String × Store :=
  match find_children st parent.runId with
  | Except.ok children =>
    match getEntry children (some partition) with
    | some rid => (rid, st)
    | none => createChildRun st parent partition
  | Except.error _ => createChildRun st parent partition

/-- Number of runs in the store whose tags satisfy
`parent_run_id = pid` and `run_name = p`. -/
def countNamed (st : Store) (pid p : String) : Nat :=
  ((searchRuns st pid).filter
    (fun r => getEntry r.tags MLFLOW_RUN_NAME == some p)).length

/-! ### Effect of `start_child_run` on the store -/

theorem getEntry_childStartTags_parent (parent : Run) :
    getEntry (childStartTags parent) MLFLOW_PARENT_RUN_ID =
      some parent.runId :=
  getEntry_setEntry_self _ _ _

theorem createChildRun_tags_parent (parent : Run) (p : String) :
    getEntry (setEntry (childStartTags parent) MLFLOW_RUN_NAME p)
      MLFLOW_PARENT_RUN_ID = some parent.runId := by
  rw [getEntry_setEntry_ne _ _ _ _ (by decide)]
  exact getEntry_childStartTags_parent parent

theorem createChildRun_tags_name (parent : Run) (p : String) :
    getEntry (setEntry (childStartTags parent) MLFLOW_RUN_NAME p)
      MLFLOW_RUN_NAME = some p :=
  getEntry_setEntry_self _ _ _

/-- Searching the store after a child-run creation finds the old children
plus the new run. -/
theorem searchRuns_createChildRun (st : Store) (parent : Run) (p : String) :
    searchRuns (createChildRun st parent p).2 parent.runId =
      searchRuns st parent.runId ++
        [⟨freshRunId st, setEntry (childStartTags parent) MLFLOW_RUN_NAME p⟩] := by
  unfold createChildRun searchRuns
  simp only [List.filter_append]
  congr 1
  rw [List.filter_cons]
  rw [if_pos]
  · rfl
  · simp [createChildRun_tags_parent parent p]

/-- A partition name is absent from the child rows exactly when no child run
carries it as its run-name tag. -/
theorem findLast_childRows_eq_none_iff (st : Store) (pid p : String) :
    findLast (childRows st pid) (some p) = none ↔
      countNamed st pid p = 0 := by
  rw [findLast_eq_none_iff, countNamed, List.length_eq_zero,
    List.filter_eq_nil_iff]
  unfold childRows
  constructor
  · intro h r hr hc
    have := h (getEntry r.tags MLFLOW_RUN_NAME, r.runId) (List.mem_map_of_mem _ hr)
    simp only [beq_iff_eq] at hc
    exact this (by simpa using hc)
  · intro h q hq
    rcases List.mem_map.mp hq with ⟨r, hr, rfl⟩
    intro hc
    exact h r hr (by simpa using hc)

theorem countNamed_createChildRun_self (st : Store) (parent : Run)
    (p : String) :
    countNamed (createChildRun st parent p).2 parent.runId p =
      countNamed st parent.runId p + 1 := by
  unfold countNamed
  rw [searchRuns_createChildRun, List.filter_append, List.length_append]
  congr 1
  rw [List.filter_cons, if_pos]
  · rfl
  · simp [createChildRun_tags_name parent p]

theorem countNamed_createChildRun_ne (st : Store) (parent : Run)
    (p q : String) (hne : q ≠ p) :
    countNamed (createChildRun st parent p).2 parent.runId q =
      countNamed st parent.runId q := by
  unfold countNamed
  rw [searchRuns_createChildRun, List.filter_append, List.length_append]
  have : List.filter
      (fun (r : Run) => getEntry r.tags MLFLOW_RUN_NAME == some q)
      ([⟨freshRunId st, setEntry (childStartTags parent) MLFLOW_RUN_NAME p⟩] :
        List Run) =
      [] := by
    rw [List.filter_cons, if_neg]
    · rfl
    · simp [createChildRun_tags_name parent p]
      exact fun h => hne h.symm
  rw [this]
  rfl

/-- Searches under a different parent are unaffected by a child creation for
this parent. -/
theorem countNamed_createChildRun_other_parent (st : Store) (parent : Run)
    (p : String) (pid q : String) (hne : pid ≠ parent.runId) :
    countNamed (createChildRun st parent p).2 pid q =
      countNamed st pid q := by
  unfold countNamed searchRuns createChildRun
  simp only [List.filter_append]
  have : List.filter
      (fun (r : Run) => getEntry r.tags MLFLOW_PARENT_RUN_ID == some pid)
      ([⟨freshRunId st, setEntry (childStartTags parent) MLFLOW_RUN_NAME p⟩] :
        List Run) =
      [] := by
    rw [List.filter_cons, if_neg]
    · rfl
    · simp [createChildRun_tags_parent parent p]
      exact fun h => hne h.symm
  rw [this]
  simp

theorem childRows_createChildRun (st : Store) (parent : Run) (p : String) :
    childRows (createChildRun st parent p).2 parent.runId =
      childRows st parent.runId ++ [(some p, freshRunId st)] := by
  unfold childRows
  rw [searchRuns_createChildRun, List.map_append]
  congr 1
  simp [createChildRun_tags_name parent p]

/-- When the parent has no child run named `p`, `start_child_run` takes the
creation path. -/
theorem start_child_run_creates (st : Store) (parent : Run) (p : String)
    (hz : countNamed st parent.runId p = 0) :
    start_child_run st parent p = createChildRun st parent p := by
  unfold start_child_run find_children
  by_cases hemp : (childRows st parent.runId).isEmpty = true
  · rw [if_pos hemp]
  · rw [if_neg hemp]
    simp only
    rw [getEntry_toDict,
      (findLast_childRows_eq_none_iff st parent.runId p).mpr hz]

/-- When the parent has a child run named `p`, `start_child_run` re-opens
the last one found by the search: the store is unchanged and the returned
id is the one the children dict holds for `p`. -/
theorem start_child_run_reuses (st : Store) (parent : Run) (p : String)
    (h1 : 1 ≤ countNamed st parent.runId p) :
    ∃ rid, findLast (childRows st parent.runId) (some p) = some rid ∧
      start_child_run st parent p = (rid, st) := by
  have hsome : (findLast (childRows st parent.runId) (some p)).isSome = true := by
    cases hf : findLast (childRows st parent.runId) (some p) with
    | some rid => rfl
    | none =>
      rw [findLast_childRows_eq_none_iff] at hf
      omega
  cases hf : findLast (childRows st parent.runId) (some p) with
  | none => rw [hf] at hsome; simp at hsome
  | some rid =>
    refine ⟨rid, rfl, ?_⟩
    unfold start_child_run find_children
    have hemp : (childRows st parent.runId).isEmpty = false := by
      cases hrows : childRows st parent.runId with
      | nil => rw [hrows] at hf; simp at hf
      | cons a l => rfl
    rw [if_neg (by rw [hemp]; intro hc; cases hc)]
    simp only
    rw [getEntry_toDict, hf]

/-- Effect of `start_child_run` on the number of child runs with a given
name: a run named `p` is created exactly when none existed; nothing else
changes. -/
theorem countNamed_start_child_run (st : Store) (parent : Run)
    (p q : String) :
    countNamed (start_child_run st parent p).2 parent.runId q =
      if p = q ∧ countNamed st parent.runId p = 0
      then countNamed st parent.runId q + 1
      else countNamed st parent.runId q := by
  by_cases hz : countNamed st parent.runId p = 0
  · rw [start_child_run_creates st parent p hz]
    by_cases hq : p = q
    · subst hq
      rw [if_pos ⟨rfl, hz⟩]
      exact countNamed_createChildRun_self st parent p
    · rw [if_neg (fun hc => hq hc.1)]
      exact countNamed_createChildRun_ne st parent p q (fun h => hq h.symm)
  · rcases start_child_run_reuses st parent p (by omega) with ⟨rid, _, heq⟩
    rw [heq, if_neg (fun hc => hz hc.2)]

/-- `start_child_run` leaves the store unchanged when a child run with the
requested name already exists. -/
theorem start_child_run_store_of_exists (st : Store) (parent : Run)
    (p : String) (h1 : 1 ≤ countNamed st parent.runId p) :
    (start_child_run st parent p).2 = st := by
  rcases start_child_run_reuses st parent p h1 with ⟨rid, _, heq⟩
  rw [heq]

/-- Claim C1: for every parent run and partition name `p`, starting from a
store holding at most one child run of that parent named `p`, calling
`start_child_run` twice in sequence returns the same run id both times, the
second call leaves the store unchanged (it re-opens instead of creating a
second run), and afterwards the store holds exactly one run whose tags
satisfy `parent_run_id = parent.runId` and `run_name = p`. -/
theorem claim_C1 (st : Store) (parent : Run) (p : String)
    (h : countNamed st parent.runId p ≤ 1) :
    (start_child_run st parent p).1 =
      (start_child_run (start_child_run st parent p).2 parent p).1 ∧
    (start_child_run (start_child_run st parent p).2 parent p).2 =
      (start_child_run st parent p).2 ∧
    countNamed (start_child_run (start_child_run st parent p).2 parent p).2
      parent.runId p = 1 := by
  by_cases hz : countNamed st parent.runId p = 0
  · have hfirst := start_child_run_creates st parent p hz
    have hc1 : countNamed (start_child_run st parent p).2 parent.runId p = 1 := by
      rw [countNamed_start_child_run, if_pos ⟨rfl, hz⟩, hz]
    rcases start_child_run_reuses (start_child_run st parent p).2 parent p
        (by omega) with ⟨rid, hlast, hsecond⟩
    have hrows : childRows (start_child_run st parent p).2 parent.runId =
        childRows st parent.runId ++ [(some p, freshRunId st)] := by
      rw [hfirst]
      exact childRows_createChildRun st parent p
    have hrid : rid = freshRunId st := by
      rw [hrows, findLast_append] at hlast
      have : findLast ([(some p, freshRunId st)] :
          List (Option String × String)) (some p) = some (freshRunId st) := by
        simp [findLast_cons]
      rw [this] at hlast
      simp only [orO_some] at hlast
      exact (Option.some.injEq _ _ ▸ hlast).symm
    have hr1 : (start_child_run st parent p).1 = freshRunId st := by
      rw [hfirst]; rfl
    refine ⟨?_, ?_, ?_⟩
    · rw [hsecond, hr1, hrid]
    · rw [hsecond]
    · rw [hsecond]
      exact hc1
  · have h1 : 1 ≤ countNamed st parent.runId p := by omega
    have hone : countNamed st parent.runId p = 1 := by omega
    rcases start_child_run_reuses st parent p h1 with ⟨rid, hlast, heq⟩
    have hstore : (start_child_run st parent p).2 = st := by rw [heq]
    refine ⟨?_, ?_, ?_⟩
    · rw [hstore, heq]
    · rw [hstore, heq]
    · rw [hstore, heq]
      simpa using hone

/-! ### Claims C10, C4 (find_children), C8 (_ProtectedDict), C7 (parent) -/

/-- The child-run count for a name equals the number of rows carrying that
name in the search result. -/
theorem countNamed_eq_countKey_childRows (st : Store) (pid p : String) :
    countNamed st pid p = countKey (childRows st pid) (some p) := by
  unfold countNamed childRows countKey
  induction searchRuns st pid with
  | nil => rfl
  | cons r rest ih =>
    simp only [List.map_cons, List.filter_cons]
    by_cases hr : getEntry r.tags MLFLOW_RUN_NAME = some p
    · rw [if_pos (by simpa using hr), if_pos (by simpa using hr)]
      simp [ih]
    · rw [if_neg (by simpa using hr), if_neg (by simpa using hr)]
      exact ih

/-- Claim C10: when the search returns two or more child runs bearing the
same `run_name` tag for one parent, `find_children` succeeds and its result
holds exactly one entry for that name, whose run id is the value of the
last such row in the returned order (`findLast`): duplicates are silently
collapsed, last row wins. -/
theorem claim_C10 (st : Store) (pid q : String)
    (h2 : 2 ≤ countNamed st pid q) :
    ∃ d, find_children st pid = Except.ok d ∧
      countKey d (some q) = 1 ∧
      getEntry d (some q) = findLast (childRows st pid) (some q) := by
  have hck : 2 ≤ countKey (childRows st pid) (some q) := by
    rw [← countNamed_eq_countKey_childRows]; exact h2
  have hex : ∃ pr ∈ childRows st pid, pr.1 = some q := by
    by_contra hc
    push_neg at hc
    have : countKey (childRows st pid) (some q) = 0 :=
      (countKey_eq_zero_iff _ _).mpr (fun pr hpr => hc pr hpr)
    omega
  rcases hex with ⟨pr, hpr, hq⟩
  have hemp : (childRows st pid).isEmpty = false := by
    cases hrows : childRows st pid with
    | nil => rw [hrows] at hpr; cases hpr
    | cons a l => rfl
  refine ⟨toDict (childRows st pid), ?_, ?_, ?_⟩
  · unfold find_children
    rw [if_neg (by rw [hemp]; intro hc; cases hc)]
  · rw [countKey_toDict]
    rw [if_pos ((findLast_isSome_iff _ _).mpr ⟨pr, hpr, hq⟩)]
  · exact getEntry_toDict _ _

/-- A first sample child run named `a` under parent id `p0`. -/
def runA1 : Run := ⟨"id1", [(MLFLOW_PARENT_RUN_ID, "p0"), (MLFLOW_RUN_NAME, "a")]⟩

/-- A second, duplicate sample child run named `a` under parent id `p0`. -/
def runA2 : Run := ⟨"id2", [(MLFLOW_PARENT_RUN_ID, "p0"), (MLFLOW_RUN_NAME, "a")]⟩

/-- A store holding two duplicate child runs named `a` under parent `p0`. -/
def stDup : Store := ⟨[runA1, runA2], 3⟩

/-- A sample parent run with id `p0` and no tags. -/
def parentRun0 : Run := ⟨"p0", []⟩

/-- A store holding only a childless parent run `p0`. -/
def stEmpty : Store := ⟨[parentRun0], 1⟩

theorem claim_C10_witness :
    2 ≤ countNamed stDup "p0" "a" ∧
    (∃ d, find_children stDup "p0" = Except.ok d ∧
      countKey d (some "a") = 1 ∧
      getEntry d (some "a") = findLast (childRows stDup "p0") (some "a")) :=
  ⟨by decide, claim_C10 stDup "p0" "a" (by decide)⟩

/-- Counterexample to claim C4 as stated: for a parent with zero child runs
the search is empty and `find_children` raises a `DataSetError` (here: the
`Except.error` case) instead of returning an empty mapping. -/
theorem claim_C4_counterexample :
    find_children stEmpty "p0" =
      Except.error ("No child runs found for parent run " ++ "p0") ∧
    ∀ m, find_children stEmpty "p0" ≠ Except.ok m := by
  constructor
  · rfl
  · intro m hc
    cases hc

/-- Claim C4, amended: when the tag-filtered search returns an empty result
`find_children` raises a `DataSetError` naming the parent run (it does not
return an empty mapping); when the search is non-empty it returns a mapping
without error.  Callers such as `start_child_run` catch the error and treat
it as "no children". -/
theorem claim_C4 (st : Store) (pid : String) :
    (searchRuns st pid = [] →
      find_children st pid =
        Except.error ("No child runs found for parent run " ++ pid)) ∧
    (searchRuns st pid ≠ [] →
      ∃ m, find_children st pid = Except.ok m) := by
  constructor
  · intro h
    unfold find_children
    rw [if_pos]
    unfold childRows
    rw [h]
    rfl
  · intro h
    refine ⟨toDict (childRows st pid), ?_⟩
    unfold find_children
    rw [if_neg]
    intro hc
    unfold childRows at hc
    rw [List.isEmpty_iff, List.map_eq_nil_iff] at hc
    exact h hc

theorem claim_C4_witness :
    find_children stEmpty "p0" =
      Except.error ("No child runs found for parent run " ++ "p0") ∧
    (∃ m, find_children stDup "p0" = Except.ok m) :=
  ⟨(claim_C4 stEmpty "p0").1 (by decide),
   (claim_C4 stDup "p0").2 (by decide)⟩

/-- `_ProtectedDict`: a dict that does not allow overwriting protected keys.
The source field is named `protected` (a keyword here, hence
`protectedKeys`). -/
structure _ProtectedDict where
  entries : List (String × String)
  protectedKeys : List String
deriving DecidableEq

/-- `_ProtectedDict.__setitem__`: writes to protected keys are silently
dropped; any other key is assigned as in an ordinary dict. -/
def _ProtectedDict.setItem (d : _ProtectedDict) (k v : String) :
    _ProtectedDict :=
  if k ∈ d.protectedKeys then d
  else { d with entries := setEntry d.entries k v }

/-- The `_ProtectedDict(tags, {MLFLOW_PARENT_RUN_ID})` built by
`start_child_run` when creating a child run: the parent's tags with the
run-name tag popped and the parent-run-id tag set, protecting
`MLFLOW_PARENT_RUN_ID`. -/
def childProtectedDict (parent : Run) : _ProtectedDict :=
  ⟨childStartTags parent, [MLFLOW_PARENT_RUN_ID]⟩

/-- Claim C8: on the child-run tag mapping created at run creation (with the
parent-run-id key protected), a later write to the parent-run-id key leaves
the dict — in particular the original parent-id value — unchanged, while a
write to any other key takes effect exactly as on an ordinary mapping. -/
theorem claim_C8 (parent : Run) (v k w : String)
    (hk : k ≠ MLFLOW_PARENT_RUN_ID) :
    ((childProtectedDict parent).setItem MLFLOW_PARENT_RUN_ID v =
      childProtectedDict parent) ∧
    (getEntry ((childProtectedDict parent).setItem MLFLOW_PARENT_RUN_ID
        v).entries MLFLOW_PARENT_RUN_ID = some parent.runId) ∧
    (((childProtectedDict parent).setItem k w).entries =
      setEntry (childProtectedDict parent).entries k w) := by
  have hdrop : (childProtectedDict parent).setItem MLFLOW_PARENT_RUN_ID v =
      childProtectedDict parent := by
    unfold _ProtectedDict.setItem
    rw [if_pos]
    unfold childProtectedDict
    exact List.mem_singleton.mpr rfl
  refine ⟨hdrop, ?_, ?_⟩
  · rw [hdrop]
    exact getEntry_childStartTags_parent parent
  · unfold _ProtectedDict.setItem
    rw [if_neg]
    unfold childProtectedDict
    simpa using hk

theorem claim_C8_witness :
    "foo" ≠ MLFLOW_PARENT_RUN_ID ∧
    (((childProtectedDict runA1).setItem MLFLOW_PARENT_RUN_ID "other" =
        childProtectedDict runA1) ∧
     (getEntry ((childProtectedDict runA1).setItem MLFLOW_PARENT_RUN_ID
        "other").entries MLFLOW_PARENT_RUN_ID = some runA1.runId) ∧
     (((childProtectedDict runA1).setItem "foo" "bar").entries =
        setEntry (childProtectedDict runA1).entries "foo" "bar")) :=
  ⟨by decide, claim_C8 runA1 "other" "foo" "bar" (by decide)⟩

/-- Errors of the parent-resolution property: `IndexError` from
`_active_run_stack[0]` on an empty stack, or mlflow's miss for an unknown
run id. -/
inductive ParentError where
  | indexError : ParentError
  | runNotFound : String → ParentError
deriving DecidableEq

/-- An element returned by `List.find?` satisfies the searched predicate. -/
theorem find?_sat {α : Type} (p : α → Bool) (l : List α) (a : α)
    (h : l.find? p = some a) : p a = true := by
  induction l with
  | nil => cases h
  | cons b t ih =>
    rw [List.find?_cons] at h
    cases hb : p b with
    | true =>
      rw [hb] at h
      simp at h
      rw [← h]
      exact hb
    | false =>
      rw [hb] at h
      simp at h
      exact ih h

/-- `mlflow.get_run(run_id)`. -/
def get_run (st : Store) (rid : String) : Except ParentError Run :=
  match st.runs.find? (fun r => r.runId == rid) with
  | some r => Except.ok r
  | none => Except.error (ParentError.runNotFound rid)

/-- `_active_run_stack[0]`: the first (oldest, outermost) element of the
fluent active-run stack; Python raises `IndexError` when it is empty.  The
stack is listed in push order: index 0 is the bottom, the most recently
opened run sits at the end. -/
def activeStackFirst : List Run → Except ParentError Run
  | [] => Except.error ParentError.indexError
  | r :: _ => Except.ok r

/-- The `MlflowPartitionedDataSet.parent` property: `mlflow.get_run(id)`
when a (truthy, i.e. non-empty) explicit parent run id is configured, else
`_active_run_stack[0]`. -/
def parentProperty (parent_run_id : Option String) (stack : List Run)
    (st : Store) : Except ParentError Run :=
  match parent_run_id with
  | some pid => if pid = "" then activeStackFirst stack else get_run st pid
  | none => activeStackFirst stack

/-- Counterexample to claim C7 as stated: with no explicit id and two open
runs on the stack (`runA2` the most recently opened, i.e. the top), the
code resolves the parent to `runA1` — the bottom (index 0) of the stack,
not the top — and with an empty stack it raises an `IndexError` instead of
creating a fresh run. -/
theorem claim_C7_counterexample :
    parentProperty none [runA1, runA2] stEmpty = Except.ok runA1 ∧
    runA1 ≠ runA2 ∧
    parentProperty none [] stEmpty = Except.error ParentError.indexError :=
  ⟨rfl, by decide, rfl⟩

/-- Claim C7, amended: parent resolution (1) uses the store's run with the
explicitly configured id when one is supplied (and non-empty, by Python
truthiness), (2) otherwise takes the FIRST (index 0, outermost) run of the
caller's open-run stack — not the top — and (3) with no explicit id and an
empty stack it fails with an `IndexError`; no fresh run is ever created. -/
theorem claim_C7 (prid : Option String) (stack : List Run) (st : Store) :
    (∀ pid, prid = some pid → pid ≠ "" →
      parentProperty prid stack st = get_run st pid ∧
      ∀ r, get_run st pid = Except.ok r → r.runId = pid) ∧
    ((prid = none ∨ prid = some "") → ∀ r rest, stack = r :: rest →
      parentProperty prid stack st = Except.ok r) ∧
    ((prid = none ∨ prid = some "") → stack = [] →
      parentProperty prid stack st = Except.error ParentError.indexError) := by
  refine ⟨?_, ?_, ?_⟩
  · intro pid hp hne
    subst hp
    constructor
    · show (if pid = "" then activeStackFirst stack else get_run st pid) =
        get_run st pid
      rw [if_neg hne]
    · intro r hr
      unfold get_run at hr
      cases hf : st.runs.find? (fun r => r.runId == pid) with
      | some r' =>
        rw [hf] at hr
        have hpr := find?_sat (fun r => r.runId == pid) st.runs r' hf
        simp at hpr
        cases hr
        exact hpr
      | none => rw [hf] at hr; cases hr
  · intro hp r rest hstack
    subst hstack
    rcases hp with rfl | rfl
    · rfl
    · rfl
  · intro hp hstack
    subst hstack
    rcases hp with rfl | rfl
    · rfl
    · rfl

theorem claim_C7_witness :
    parentProperty (some "id1") [] stDup = get_run stDup "id1" ∧
    parentProperty none [runA1] stEmpty = Except.ok runA1 ∧
    parentProperty none [] stEmpty = Except.error ParentError.indexError :=
  ⟨((claim_C7 (some "id1") [] stDup).1 "id1" rfl (by decide)).1,
   (claim_C7 none [runA1] stEmpty).2.1 (Or.inl rfl) runA1 [] rfl,
   (claim_C7 none [] stEmpty).2.2 (Or.inl rfl) rfl⟩

theorem claim_C1_witness :
    countNamed stEmpty "p0" "a" ≤ 1 ∧
    ((start_child_run stEmpty parentRun0 "a").1 =
      (start_child_run (start_child_run stEmpty parentRun0 "a").2
        parentRun0 "a").1 ∧
    (start_child_run (start_child_run stEmpty parentRun0 "a").2
        parentRun0 "a").2 =
      (start_child_run stEmpty parentRun0 "a").2 ∧
    countNamed (start_child_run (start_child_run stEmpty parentRun0 "a").2
        parentRun0 "a").2 "p0" "a" = 1) :=
  ⟨by decide, claim_C1 stEmpty parentRun0 "a" (by decide)⟩

/-! ## MlflowPartitionedHook (`mlflow_partitioned_hook.py`)

`after_node_run` only acts when `is_async` is true.  It intersects the
tracked partitioned datasets with the unit's output names, counts partition
keys across those outputs (`Counter(chain(...))`), and for every key
occurring more than once that is not yet in `_save_history`, opens a child
run via `start_child_run` and records the key in `_save_history`.  Python
sets are embedded as lists with membership tests; `outputs` is embedded as
an association list from output name to the list of partition keys of that
output's payload dict. -/

/-- The race-prone outputs of this unit: `self._datasets & set(outputs)`. -/
def trackedOuts (tracked : List String) (outs : List (String × List String)) :
    List (String × List String) :=
  outs.filter (fun o => decide (o.1 ∈ tracked))

/-- All partition keys of the unit's race-prone outputs, with multiplicity
(`chain(*(outputs[name].keys() for name in datasets))`). -/
def unitKeys (tracked : List String) (outs : List (String × List String)) :
    List String :=
  ((trackedOuts tracked outs).map (fun o => o.2)).flatten

/-- `problematic = {part for part in partitions if partitions[part] > 1}`:
the distinct keys occurring more than once across the race-prone outputs. -/
def problematicKeys (tracked : List String)
    (outs : List (String × List String)) : List String :=
  (unitKeys tracked outs).dedup.filter
    (fun p => decide (1 < (unitKeys tracked outs).count p))

/-- `problematic -= self._save_history`: the still-problematic keys not yet
confirmed running. -/
def problematic2 (problematic hist : List String) : List String :=
  problematic.filter (fun p => decide (p ∉ hist))

/-- `runs_to_start = problematic & set(outputs[dataset_name].keys())`. -/
def toStart (problematic hist keys : List String) : List String :=
  (problematic2 problematic hist).filter (fun p => decide (p ∈ keys))

theorem mem_problematic2 (pr hist : List String) (q : String) :
    q ∈ problematic2 pr hist ↔ q ∈ pr ∧ q ∉ hist := by
  simp [problematic2, List.mem_filter]

theorem mem_toStart (pr hist keys : List String) (q : String) :
    q ∈ toStart pr hist keys ↔ (q ∈ pr ∧ q ∉ hist) ∧ q ∈ keys := by
  constructor
  · intro h
    have h1 := List.mem_filter.mp h
    have h2 := (mem_problematic2 pr hist q).mp h1.1
    exact ⟨h2, by simpa using h1.2⟩
  · intro h
    exact List.mem_filter.mpr
      ⟨(mem_problematic2 pr hist q).mpr h.1, by simpa using h.2⟩

/-- The inner loop `for partition in runs_to_start`: start (or re-open) the
child run for each partition and add it to `_save_history` (a set: adding an
element already present changes nothing).  Returns the store, the history
and the trace of partitions for which `start_child_run` was invoked. -/
def startRuns (parent : Run) :
    List String → Store → List String → List String →
    Store × List String × List String
  | [], st, hist, started => (st, hist, started)
  | p :: rest, st, hist, started =>
    startRuns parent rest (start_child_run st parent p).2
      (if p ∈ hist then hist else hist ++ [p]) (started ++ [p])

/-- The outer loop `for dataset_name in datasets`: drop already-confirmed
keys from `problematic`, intersect with this output's keys, and start those
runs. -/
def processDatasets (parent : Run) :
    List (String × List String) → List String → Store → List String →
    List String → Store × List String × List String
  | [], _, st, hist, started => (st, hist, started)
  | o :: rest, problematic, st, hist, started =>
    processDatasets parent rest (problematic2 problematic hist)
      (startRuns parent (toStart problematic hist o.2) st hist started).1
      (startRuns parent (toStart problematic hist o.2) st hist started).2.1
      (startRuns parent (toStart problematic hist o.2) st hist started).2.2

/-- `MlflowPartitionedHook.after_node_run`: no-op unless `is_async`;
otherwise pre-creates child runs for colliding partition keys.  Returns the
store, the updated `_save_history`, and the trace of partitions for which a
run was resolved. -/
def after_node_run (tracked hist : List String) (st : Store) (parent : Run)
    (is_async : Bool) (outs : List (String × List String)) :
    Store × List String × List String :=
  if is_async then
    processDatasets parent (trackedOuts tracked outs)
      (problematicKeys tracked outs) st hist []
  else (st, hist, [])

/-- Folding `after_node_run` (with `is_async = true`) over a sequence of
completed units of work, threading the store and the save history. -/
def processUnits (tracked : List String) (parent : Run) :
    List (List (String × List String)) → Store → List String →
    Store × List String
  | [], st, hist => (st, hist)
  | u :: rest, st, hist =>
    processUnits tracked parent rest
      (after_node_run tracked hist st parent true u).1
      (after_node_run tracked hist st parent true u).2.1

/-! ### Behavior of the hook loops -/

theorem startRuns_started (parent : Run) (l : List String) (st : Store)
    (hist started : List String) :
    (startRuns parent l st hist started).2.2 = started ++ l := by
  induction l generalizing st hist started with
  | nil => simp [startRuns]
  | cons p rest ih =>
    rw [startRuns, ih]
    simp

theorem startRuns_hist_mem (parent : Run) (l : List String) (st : Store)
    (hist started : List String) (q : String) :
    q ∈ (startRuns parent l st hist started).2.1 ↔ q ∈ hist ∨ q ∈ l := by
  induction l generalizing st hist started with
  | nil => simp [startRuns]
  | cons p rest ih =>
    rw [startRuns, ih]
    by_cases hp : p ∈ hist
    · rw [if_pos hp]
      constructor
      · rintro (h | h)
        · exact Or.inl h
        · exact Or.inr (List.mem_cons_of_mem p h)
      · rintro (h | h)
        · exact Or.inl h
        · rcases List.mem_cons.mp h with rfl | h
          · exact Or.inl hp
          · exact Or.inr h
    · rw [if_neg hp]
      simp only [List.mem_append, List.mem_singleton, List.mem_cons]
      tauto

theorem startRuns_count (parent : Run) (l : List String) (st : Store)
    (hist started : List String) (q : String) :
    countNamed (startRuns parent l st hist started).1 parent.runId q =
      if q ∈ l ∧ countNamed st parent.runId q = 0 then 1
      else countNamed st parent.runId q := by
  induction l generalizing st hist started with
  | nil => simp [startRuns]
  | cons p rest ih =>
    rw [startRuns, ih]
    have hstep := countNamed_start_child_run st parent p q
    by_cases hpq : p = q
    · subst hpq
      by_cases hz : countNamed st parent.runId p = 0
      · rw [if_pos ⟨rfl, hz⟩] at hstep
        rw [hstep, hz]
        rw [if_neg (by omega), if_pos ⟨List.mem_cons_self p rest, rfl⟩]
      · rw [if_neg (fun hc => hz hc.2)] at hstep
        rw [hstep]
        rw [if_neg (fun hc => hz hc.2), if_neg (fun hc => hz hc.2)]
    · rw [if_neg (fun hc => hpq hc.1)] at hstep
      rw [hstep]
      by_cases hq : q ∈ rest ∧ countNamed st parent.runId q = 0
      · rw [if_pos hq, if_pos ⟨List.mem_cons_of_mem p hq.1, hq.2⟩]
      · rw [if_neg hq, if_neg]
        intro hc
        rcases List.mem_cons.mp hc.1 with rfl | hmem
        · exact hpq rfl
        · exact hq ⟨hmem, hc.2⟩

/-- Existential over a cons cell. -/
theorem exists_mem_cons {α : Type} (p : α → Prop) (a : α) (l : List α) :
    (∃ x ∈ a :: l, p x) ↔ p a ∨ ∃ x ∈ l, p x := by
  constructor
  · rintro ⟨x, hx, hp⟩
    rcases List.mem_cons.mp hx with rfl | hx
    · exact Or.inl hp
    · exact Or.inr ⟨x, hx, hp⟩
  · rintro (hp | ⟨x, hx, hp⟩)
    · exact ⟨a, List.mem_cons_self a l, hp⟩
    · exact ⟨x, List.mem_cons_of_mem a hx, hp⟩

/-- Propositional core of the started-trace characterization of the hook
loop. -/
theorem hookA_prop (S P H O E : Prop) :
    ((S ∨ (P ∧ ¬H) ∧ O) ∨ ((P ∧ ¬H) ∧ ¬(H ∨ (P ∧ ¬H) ∧ O) ∧ E)) ↔
      (S ∨ P ∧ ¬H ∧ (O ∨ E)) := by
  tauto

/-- Propositional core of the history-growth characterization of the hook
loop. -/
theorem hookB_prop (P H O E : Prop) :
    ((H ∨ (P ∧ ¬H) ∧ O) ∨ ((P ∧ ¬H) ∧ E)) ↔ (H ∨ P ∧ (O ∨ E)) := by
  tauto

set_option maxHeartbeats 1000000 in
/-- Full characterization of the hook's dataset loop: which partitions get a
run resolved (the started trace), how the save history grows, and how the
per-name child-run counts change. -/
theorem processDatasets_spec (parent : Run)
    (os : List (String × List String)) :
    ∀ (problematic : List String) (st : Store) (hist started : List String),
      problematic.Nodup → started.Nodup → (∀ q, q ∈ started → q ∈ hist) →
      (processDatasets parent os problematic st hist started).2.2.Nodup ∧
      ∀ q,
        (q ∈ (processDatasets parent os problematic st hist started).2.2 ↔
          q ∈ started ∨
            (q ∈ problematic ∧ q ∉ hist ∧ ∃ o ∈ os, q ∈ o.2)) ∧
        (q ∈ (processDatasets parent os problematic st hist started).2.1 ↔
          q ∈ hist ∨ (q ∈ problematic ∧ ∃ o ∈ os, q ∈ o.2)) ∧
        (countNamed (processDatasets parent os problematic st hist started).1
            parent.runId q =
          if (q ∈ problematic ∧ q ∉ hist ∧ ∃ o ∈ os, q ∈ o.2) ∧
              countNamed st parent.runId q = 0
          then 1 else countNamed st parent.runId q) := by
  induction os with
  | nil =>
    intro problematic st hist started hprob hstart hs
    refine ⟨hstart, fun q => ⟨by simp [processDatasets],
      by simp [processDatasets], by simp [processDatasets]⟩⟩
  | cons o rest ih =>
    intro problematic st hist started hprob hstart hs
    have hT : ∀ q, q ∈ toStart problematic hist o.2 ↔
        (q ∈ problematic ∧ q ∉ hist) ∧ q ∈ o.2 :=
      fun q => mem_toStart problematic hist o.2 q
    have hTnodup : (toStart problematic hist o.2).Nodup :=
      (hprob.filter _).filter _
    have hR2 : (startRuns parent (toStart problematic hist o.2) st hist
        started).2.2 = started ++ toStart problematic hist o.2 :=
      startRuns_started parent _ st hist started
    have hRh : ∀ q, q ∈ (startRuns parent (toStart problematic hist o.2) st
        hist started).2.1 ↔ q ∈ hist ∨ q ∈ toStart problematic hist o.2 :=
      fun q => startRuns_hist_mem parent _ st hist started q
    have hRc : ∀ q, countNamed (startRuns parent
        (toStart problematic hist o.2) st hist started).1 parent.runId q =
        if q ∈ toStart problematic hist o.2 ∧
            countNamed st parent.runId q = 0 then 1
        else countNamed st parent.runId q :=
      fun q => startRuns_count parent _ st hist started q
    have hdisj : started.Disjoint (toStart problematic hist o.2) := by
      intro a ha hb
      exact ((hT a).mp hb).1.2 (hs a ha)
    have hstart2 : (startRuns parent (toStart problematic hist o.2) st hist
        started).2.2.Nodup := by
      rw [hR2]
      exact hstart.append hTnodup hdisj
    have hs2 : ∀ q, q ∈ (startRuns parent (toStart problematic hist o.2) st
        hist started).2.2 → q ∈ (startRuns parent
        (toStart problematic hist o.2) st hist started).2.1 := by
      intro q hq
      rw [hR2] at hq
      rw [hRh q]
      rcases List.mem_append.mp hq with h | h
      · exact Or.inl (hs q h)
      · exact Or.inr h
    obtain ⟨ihnodup, ihq⟩ := ih (problematic2 problematic hist)
      (startRuns parent (toStart problematic hist o.2) st hist started).1
      (startRuns parent (toStart problematic hist o.2) st hist started).2.1
      (startRuns parent (toStart problematic hist o.2) st hist started).2.2
      (hprob.filter _) hstart2 hs2
    have hunfold : processDatasets parent (o :: rest) problematic st hist
        started = processDatasets parent rest (problematic2 problematic hist)
        (startRuns parent (toStart problematic hist o.2) st hist started).1
        (startRuns parent (toStart problematic hist o.2) st hist started).2.1
        (startRuns parent (toStart problematic hist o.2) st hist started).2.2
        := by simp only [processDatasets]
    rw [hunfold]
    refine ⟨ihnodup, fun q => ?_⟩
    obtain ⟨ihA, ihB, ihC⟩ := ihq q
    refine ⟨?_, ?_, ?_⟩
    · rw [ihA, hR2, exists_mem_cons (fun o => q ∈ o.2) o rest]
      rw [List.mem_append, mem_problematic2, hRh q, hT q]
      exact hookA_prop _ _ _ _ _
    · rw [ihB, hRh q, mem_problematic2, hT q,
        exists_mem_cons (fun o => q ∈ o.2) o rest]
      exact hookB_prop _ _ _ _
    · rw [ihC]
      by_cases hTZ : q ∈ toStart problematic hist o.2 ∧
          countNamed st parent.runId q = 0
      · obtain ⟨hTq, hZ⟩ := hTZ
        obtain ⟨⟨hPq, hHq⟩, hOq⟩ := (hT q).mp hTq
        have hc1 : countNamed (startRuns parent
            (toStart problematic hist o.2) st hist started).1
            parent.runId q = 1 := by
          rw [hRc q, if_pos ⟨hTq, hZ⟩]
        rw [if_neg (fun hc => Nat.one_ne_zero (hc1 ▸ hc.2)), hc1,
          if_pos ⟨⟨hPq, hHq, ⟨o, List.mem_cons_self o rest, hOq⟩⟩, hZ⟩]
      · have hc1 : countNamed (startRuns parent
            (toStart problematic hist o.2) st hist started).1
            parent.runId q = countNamed st parent.runId q := by
          rw [hRc q, if_neg hTZ]
        simp only [hc1]
        by_cases hZ : countNamed st parent.runId q = 0
        · have hTq : q ∉ toStart problematic hist o.2 :=
            fun hc => hTZ ⟨hc, hZ⟩
          by_cases hH : q ∈ hist
          · rw [if_neg (fun hc => hc.1.2.1 ((hRh q).mpr (Or.inl hH))),
              if_neg (fun hc => hc.1.2.1 hH)]
          · by_cases hP : q ∈ problematic
            · have hO : q ∉ o.2 := fun hc => hTq ((hT q).mpr ⟨⟨hP, hH⟩, hc⟩)
              by_cases hE : ∃ x ∈ rest, q ∈ x.2
              · obtain ⟨x, hx, hqx⟩ := hE
                rw [if_pos ⟨⟨(mem_problematic2 _ _ _).mpr ⟨hP, hH⟩,
                    fun hc => (by
                      rcases (hRh q).mp hc with h | h
                      · exact hH h
                      · exact hTq h : False), ⟨x, hx, hqx⟩⟩, hZ⟩,
                  if_pos ⟨⟨hP, hH,
                    ⟨x, List.mem_cons_of_mem o hx, hqx⟩⟩, hZ⟩]
              · rw [if_neg (fun hc => hE hc.1.2.2),
                  if_neg (fun hc => (by
                    rcases hc.1.2.2 with ⟨x, hx, hqx⟩
                    rcases List.mem_cons.mp hx with rfl | hx
                    · exact hO hqx
                    · exact hE ⟨x, hx, hqx⟩ : False))]
            · rw [if_neg (fun hc =>
                  hP ((mem_problematic2 _ _ _).mp hc.1.1).1),
                if_neg (fun hc => hP hc.1.1)]
        · rw [if_neg (fun hc => hZ hc.2), if_neg (fun hc => hZ hc.2)]

theorem problematicKeys_nodup (tracked : List String)
    (outs : List (String × List String)) :
    (problematicKeys tracked outs).Nodup :=
  (List.nodup_dedup _).filter _

theorem mem_problematicKeys (tracked : List String)
    (outs : List (String × List String)) (q : String) :
    q ∈ problematicKeys tracked outs ↔
      1 < (unitKeys tracked outs).count q := by
  unfold problematicKeys
  rw [List.mem_filter]
  constructor
  · intro h
    simpa using h.2
  · intro h
    refine ⟨List.mem_dedup.mpr ?_, by simpa using h⟩
    exact List.count_pos_iff.mp (by omega)

theorem unitKeys_mem (tracked : List String)
    (outs : List (String × List String)) (q : String) :
    q ∈ unitKeys tracked outs ↔ ∃ o ∈ trackedOuts tracked outs, q ∈ o.2 := by
  unfold unitKeys
  rw [List.mem_flatten]
  constructor
  · rintro ⟨x, hx, hq⟩
    rcases List.mem_map.mp hx with ⟨o, ho, rfl⟩
    exact ⟨o, ho, hq⟩
  · rintro ⟨o, ho, hq⟩
    exact ⟨o.2, List.mem_map_of_mem _ ho, hq⟩

/-- The async branch of `after_node_run` is the dataset loop seeded with an
empty started-trace. -/
theorem after_node_run_async (tracked hist : List String) (st : Store)
    (parent : Run) (outs : List (String × List String)) :
    after_node_run tracked hist st parent true outs =
      processDatasets parent (trackedOuts tracked outs)
        (problematicKeys tracked outs) st hist [] := rfl

/-- Invariant of repeated hook invocations: a partition is confirmed in the
save history exactly when its child run exists (and then exactly once); the
history only grows; and any unit in which the partition collides forces it
into the history. -/
theorem processUnits_count (tracked : List String) (parent : Run)
    (p : String) :
    ∀ (units : List (List (String × List String))) (st : Store)
      (hist : List String),
      countNamed st parent.runId p = (if p ∈ hist then 1 else 0) →
      (countNamed (processUnits tracked parent units st hist).1
          parent.runId p =
        (if p ∈ (processUnits tracked parent units st hist).2 then 1
          else 0)) ∧
      (p ∈ hist → p ∈ (processUnits tracked parent units st hist).2) ∧
      ((∃ u ∈ units, 1 < (unitKeys tracked u).count p) →
        p ∈ (processUnits tracked parent units st hist).2) := by
  intro units
  induction units with
  | nil =>
    intro st hist hinv
    refine ⟨hinv, fun h => h, ?_⟩
    rintro ⟨u, hu, _⟩
    cases hu
  | cons u rest ih =>
    intro st hist hinv
    obtain ⟨_, hspec⟩ := processDatasets_spec parent (trackedOuts tracked u)
      (problematicKeys tracked u) st hist []
      (problematicKeys_nodup tracked u) List.nodup_nil (by intro q h; cases h)
    obtain ⟨hA, hB, hC⟩ := hspec p
    rw [← after_node_run_async] at hA hB hC
    have hinv1 : countNamed (after_node_run tracked hist st parent true u).1
        parent.runId p =
        (if p ∈ (after_node_run tracked hist st parent true u).2.1 then 1
          else 0) := by
      by_cases hH : p ∈ hist
      · rw [if_pos hH] at hinv
        rw [hC, if_neg (fun hc => hc.1.2.1 hH), hinv,
          if_pos (hB.mpr (Or.inl hH))]
      · rw [if_neg hH] at hinv
        by_cases hcond : p ∈ problematicKeys tracked u ∧
            ∃ o ∈ trackedOuts tracked u, p ∈ o.2
        · rw [hC, if_pos ⟨⟨hcond.1, hH, hcond.2⟩, hinv⟩,
            if_pos (hB.mpr (Or.inr hcond))]
        · rw [hC, if_neg (fun hc => hcond ⟨hc.1.1, hc.1.2.2⟩), hinv,
            if_neg (fun hc => ?_)]
          rcases hB.mp hc with h | h
          · exact hH h
          · exact hcond h
    have hstep : processUnits tracked parent (u :: rest) st hist =
        processUnits tracked parent rest
          (after_node_run tracked hist st parent true u).1
          (after_node_run tracked hist st parent true u).2.1 := rfl
    obtain ⟨c1, c2, c3⟩ := ih (after_node_run tracked hist st parent true u).1
      (after_node_run tracked hist st parent true u).2.1 hinv1
    rw [hstep]
    refine ⟨c1, ?_, ?_⟩
    · intro hH
      exact c2 (hB.mpr (Or.inl hH))
    · rintro ⟨u2, hu2, hcol⟩
      rcases List.mem_cons.mp hu2 with rfl | hu2
      · by_cases hH : p ∈ hist
        · exact c2 (hB.mpr (Or.inl hH))
        · refine c2 (hB.mpr (Or.inr ⟨(mem_problematicKeys tracked u2 p).mpr
            hcol, ?_⟩))
          exact (unitKeys_mem tracked u2 p).mp
            (List.count_pos_iff.mp (by omega))
      · exact c3 ⟨u2, hu2, hcol⟩

/-- Claim C2: `after_node_run` with the concurrent flag false changes
nothing; with it true it resolves (pre-creates or re-opens) a child run for
exactly the partition keys occurring more than once across the race-prone
outputs of the unit that are not already confirmed, each exactly once
(no-dup trace), and adds exactly those keys to the confirmed history; and
over any sequence of units each processed by the hook, once some unit shows
a collision for key `p`, exactly one child run named `p` exists afterwards,
regardless of processing order. -/
theorem claim_C2 (tracked hist : List String) (st : Store) (parent : Run)
    (outs : List (String × List String)) (p : String) :
    (after_node_run tracked hist st parent false outs = (st, hist, [])) ∧
    (p ∈ (after_node_run tracked hist st parent true outs).2.2 ↔
      1 < (unitKeys tracked outs).count p ∧ p ∉ hist) ∧
    (after_node_run tracked hist st parent true outs).2.2.Nodup ∧
    (p ∈ (after_node_run tracked hist st parent true outs).2.1 ↔
      p ∈ hist ∨ p ∈ (after_node_run tracked hist st parent true outs).2.2) ∧
    (countNamed st parent.runId p = 0 → p ∉ hist →
      ∀ units : List (List (String × List String)),
        (∃ u ∈ units, 1 < (unitKeys tracked u).count p) →
        countNamed (processUnits tracked parent units st hist).1
          parent.runId p = 1) := by
  obtain ⟨hnodup, hspec⟩ := processDatasets_spec parent
    (trackedOuts tracked outs) (problematicKeys tracked outs) st hist []
    (problematicKeys_nodup tracked outs) List.nodup_nil
    (by intro q h; cases h)
  obtain ⟨hA, hB, hC⟩ := hspec p
  rw [← after_node_run_async] at hA hB hC
  rw [← after_node_run_async] at hnodup
  refine ⟨rfl, ?_, hnodup, ?_, ?_⟩
  · rw [hA]
    constructor
    · rintro (h | ⟨h1, h2, h3⟩)
      · cases h
      · exact ⟨(mem_problematicKeys _ _ _).mp h1, h2⟩
    · rintro ⟨h1, h2⟩
      refine Or.inr ⟨(mem_problematicKeys _ _ _).mpr h1, h2, ?_⟩
      exact (unitKeys_mem _ _ _).mp (List.count_pos_iff.mp (by omega))
  · rw [hB, hA]
    constructor
    · rintro (h | ⟨h1, h2⟩)
      · exact Or.inl h
      · by_cases hH : p ∈ hist
        · exact Or.inl hH
        · exact Or.inr (Or.inr ⟨h1, hH, h2⟩)
    · rintro (h | h)
      · exact Or.inl h
      · rcases h with h | ⟨h1, h2, h3⟩
        · cases h
        · exact Or.inr ⟨h1, h3⟩
  · intro hz hH units hcol
    obtain ⟨c1, _, c3⟩ := processUnits_count tracked parent p units st hist
      (by rw [if_neg hH]; exact hz)
    rw [c1, if_pos (c3 hcol)]

/-- The tracked race-prone outputs of the hook sample. -/
def tracked0 : List String := ["metric", "metric_history"]

/-- A sample unit of work whose outputs collide on partitions `a` and `b`
across the two tracked partitioned outputs (and touch an untracked one). -/
def u0 : List (String × List String) :=
  [("metric", ["a", "b"]), ("metric_history", ["a", "b"]), ("csv", ["x"])]

theorem claim_C2_witness :
    (after_node_run tracked0 [] stEmpty parentRun0 false u0 =
      (stEmpty, [], [])) ∧
    ("a" ∈ (after_node_run tracked0 [] stEmpty parentRun0 true u0).2.2) ∧
    countNamed (processUnits tracked0 parentRun0 [u0, u0] stEmpty []).1
      "p0" "a" = 1 :=
  ⟨(claim_C2 tracked0 [] stEmpty parentRun0 u0 "a").1,
   (claim_C2 tracked0 [] stEmpty parentRun0 u0 "a").2.1.mpr
     ⟨by decide, by decide⟩,
   (claim_C2 tracked0 [] stEmpty parentRun0 u0 "a").2.2.2.2 (by decide)
     (by decide) [u0, u0] ⟨u0, by decide, by decide⟩⟩

/-! ## `_save`: fan-out save orchestration -/

/-- `MlflowPartitionedDataSet._save`: for each `(child_name, child_data)` of
the batch, in input order, open the child run with `start_child_run` (the
`with` block) and delegate the save of that partition's payload.  A payload
is embedded by whether its delegated save succeeds; a failing delegate
raises, halting the loop.  Returns the final store, the partitions saved so
far in order, and the partition whose save raised, if any. -/
def _save (parent : Run) :
    List (String × Bool) → Store → List String →
    Store × List String × Option String
  | [], st, saved => (st, saved, none)
  | (p, ok) :: rest, st, saved =>
    if ok then
      _save parent rest (start_child_run st parent p).2 (saved ++ [p])
    else ((start_child_run st parent p).2, saved, some p)

/-- Effect of a batch whose first failure is partition `b`: the failure is
raised, the saved partitions are exactly the ones before `b` in order, and
runs exist afterwards exactly for the earlier partitions and `b` (whose run
is opened before its delegate raises). -/
theorem _save_spec (parent : Run) :
    ∀ (pre : List (String × Bool)) (post : List (String × Bool)) (b : String)
      (st : Store) (saved : List String),
      (∀ x ∈ pre, x.2 = true) →
      (_save parent (pre ++ (b, false) :: post) st saved).2.2 = some b ∧
      (_save parent (pre ++ (b, false) :: post) st saved).2.1 =
        saved ++ pre.map (fun x => x.1) ∧
      (∀ q, countNamed (_save parent (pre ++ (b, false) :: post) st
          saved).1 parent.runId q =
        if (q ∈ pre.map (fun x => x.1) ∨ q = b) ∧
            countNamed st parent.runId q = 0
        then 1 else countNamed st parent.runId q) := by
  intro pre
  induction pre with
  | nil =>
    intro post b st saved _
    refine ⟨rfl, by simp [_save], ?_⟩
    intro q
    have hstep := countNamed_start_child_run st parent b q
    have hgoal : countNamed (_save parent ([] ++ (b, false) :: post) st
        saved).1 parent.runId q =
        countNamed (start_child_run st parent b).2 parent.runId q := rfl
    rw [hgoal, hstep]
    by_cases hbq : b = q
    · subst hbq
      by_cases hz : countNamed st parent.runId b = 0
      · rw [if_pos ⟨rfl, hz⟩, if_pos ⟨Or.inr rfl, hz⟩, hz]
      · rw [if_neg (fun hc => hz hc.2), if_neg (fun hc => hz hc.2)]
    · rw [if_neg (fun hc => hbq hc.1), if_neg]
      intro hc
      rcases hc.1 with h | h
      · cases h
      · exact hbq h.symm
  | cons x pre' ih =>
    intro post b st saved hpre
    rcases x with ⟨p, okp⟩
    have hok : okp = true := hpre (p, okp) (List.mem_cons_self _ _)
    subst hok
    have hunfold : _save parent (((p, true) :: pre') ++ (b, false) :: post)
        st saved = _save parent (pre' ++ (b, false) :: post)
        (start_child_run st parent p).2 (saved ++ [p]) := by
      simp [_save]
    obtain ⟨ih1, ih2, ih3⟩ := ih post b (start_child_run st parent p).2
      (saved ++ [p]) (fun y hy => hpre y (List.mem_cons_of_mem _ hy))
    rw [hunfold]
    refine ⟨ih1, by rw [ih2]; simp, ?_⟩
    intro q
    rw [ih3 q]
    have hstep := countNamed_start_child_run st parent p q
    by_cases hpq : p = q
    · subst hpq
      by_cases hz : countNamed st parent.runId p = 0
      · rw [if_pos ⟨rfl, hz⟩] at hstep
        rw [hstep, hz]
        rw [if_neg (by omega), if_pos ⟨Or.inl (by simp), rfl⟩]
      · rw [if_neg (fun hc => hz hc.2)] at hstep
        rw [hstep]
        rw [if_neg (fun hc => hz hc.2), if_neg (fun hc => hz hc.2)]
    · rw [if_neg (fun hc => hpq hc.1)] at hstep
      rw [hstep]
      by_cases hc' : (q ∈ pre'.map (fun x => x.1) ∨ q = b) ∧
          countNamed st parent.runId q = 0
      · rw [if_pos hc', if_pos]
        refine ⟨?_, hc'.2⟩
        rcases hc'.1 with h | h
        · exact Or.inl (by simp [h])
        · exact Or.inr h
      · rw [if_neg hc', if_neg]
        intro hc
        refine hc' ⟨?_, hc.2⟩
        rcases hc.1 with h | h
        · rcases (by simpa using h : q = p ∨
            q ∈ pre'.map (fun x => x.1)) with h1 | h1
          · exact absurd h1.symm hpq
          · exact Or.inl h1
        · exact Or.inr h

/-- Claim C6: when one partition's delegated save fails, `_save` has saved
exactly the partitions strictly before it (in input order, no rollback),
their child runs exist, the failing partition's error is raised, and no
run is created for any partition whose name is not among the earlier ones
or the failing one (in particular none of the later partitions). -/
theorem claim_C6 (parent : Run) (st : Store)
    (pre post : List (String × Bool)) (b : String)
    (hpre : ∀ x ∈ pre, x.2 = true) :
    (_save parent (pre ++ (b, false) :: post) st []).2.2 = some b ∧
    (_save parent (pre ++ (b, false) :: post) st []).2.1 =
      pre.map (fun x => x.1) ∧
    (∀ x ∈ pre, 1 ≤ countNamed (_save parent (pre ++ (b, false) :: post)
        st []).1 parent.runId x.1) ∧
    (∀ q, q ∉ pre.map (fun x => x.1) → q ≠ b →
      countNamed (_save parent (pre ++ (b, false) :: post) st []).1
        parent.runId q = countNamed st parent.runId q) := by
  obtain ⟨h1, h2, h3⟩ := _save_spec parent pre post b st [] hpre
  refine ⟨h1, by simpa using h2, ?_, ?_⟩
  · intro x hx
    rw [h3 x.1]
    by_cases hz : countNamed st parent.runId x.1 = 0
    · rw [if_pos ⟨Or.inl (List.mem_map_of_mem _ hx), hz⟩]
    · rw [if_neg (fun hc => hz hc.2)]
      omega
  · intro q hq hqb
    rw [h3 q]
    rw [if_neg]
    intro hc
    rcases hc.1 with h | h
    · exact hq h
    · exact hqb h

theorem claim_C6_witness :
    (∀ x ∈ ([("a", true)] : List (String × Bool)), x.2 = true) ∧
    ((_save parentRun0 ([("a", true)] ++ ("b", false) :: [("c", true)])
        stEmpty []).2.2 = some "b" ∧
    (_save parentRun0 ([("a", true)] ++ ("b", false) :: [("c", true)])
        stEmpty []).2.1 = [("a", true)].map (fun x => x.1) ∧
    (∀ x ∈ ([("a", true)] : List (String × Bool)),
      1 ≤ countNamed (_save parentRun0 ([("a", true)] ++
        ("b", false) :: [("c", true)]) stEmpty []).1 "p0" x.1) ∧
    (∀ q, q ∉ ([("a", true)] : List (String × Bool)).map (fun x => x.1) →
      q ≠ "b" →
      countNamed (_save parentRun0 ([("a", true)] ++
        ("b", false) :: [("c", true)]) stEmpty []).1 "p0" q =
        countNamed stEmpty "p0" q)) :=
  ⟨by decide,
   claim_C6 parentRun0 stEmpty [("a", true)] [("c", true)] "b" (by decide)⟩

/-! ## `_load`: fan-in lazy load -/

/-- A load thunk as actually produced by `_load`: the `child_name` and
`child_id` values the lambda will use when invoked, i.e. which partition
dataset it builds (`self._new_child_dataset(child_name, {"run_id":
child_id})`) and therefore whose payload it fetches. -/
structure LoadThunk where
  child_name : Option String
  child_id : String
deriving DecidableEq

/-- `MlflowPartitionedDataSet._load`: the dict comprehension
`{child_name: lambda: self._new_child_dataset(child_name, {"run_id":
child_id}).load() for child_name, child_id in self.find_children().items()}`.
CPython scoping: the comprehension's loop variables `child_name` and
`child_id` live in one cell pair shared by ALL the lambdas (late binding),
so a thunk invoked after the comprehension finished reads the values of the
LAST iteration, whichever key it is stored under.  The keys themselves are
evaluated eagerly per iteration.  No payload is fetched while building the
mapping. -/
def _load (children : List (Option String × String)) :
    List (Option String × LoadThunk) :=
  match children.getLast? with
  | none => []
  | some lastPair => children.map (fun c => (c.1, ⟨lastPair.1, lastPair.2⟩))

/-- Claim C3 evaluated at a two-partition parent: the mapping `_load`
returns has the right keys, but every thunk — including the one stored
under `a` — captures the comprehension's final loop values and therefore
builds the dataset for partition `b` with run id `id-b`: invoking the `a`
thunk loads partition `b`'s payload, contradicting the claim and the
repository's own tests. -/
theorem claim_C3_bug :
    _load [(some "a", "id-a"), (some "b", "id-b")] =
      [(some "a", ⟨some "b", "id-b"⟩), (some "b", ⟨some "b", "id-b"⟩)] ∧
    getEntry (_load [(some "a", "id-a"), (some "b", "id-b")]) (some "a") =
      some ⟨some "b", "id-b"⟩ := by
  decide

/-! ## Key-path utility (`utils.py`: `_flatten_dict` / `_unflatten_dict`)

The repo wraps the external `flatten_dict` library (a dependency, not under
src/): the recursive walk of `flatten` and the rebuild of `unflatten` are
modelled from the spec, while the reducer
(`f"{k1}{sep}{k2}" if k1 else str(k2)`) and the splitter (`k.split(sep)`)
are the repository's own code.  Nested mappings are embedded as a
first-order inductive: a configuration value is a scalar atom or a dict,
and a dict is a spine of key-value entries in insertion order. -/

/-- A nested configuration value: a scalar, or a dict given as `nil`/`cons`
spine of entries in insertion order. -/
inductive Cfg where
  | atom (s : String)
  | nil
  | cons (k : String) (v : Cfg) (rest : Cfg)
deriving DecidableEq

/-- Is this value a dict (a well-formed entry spine)? -/
def isDict : Cfg → Bool
  | Cfg.atom _ => false
  | Cfg.nil => true
  | Cfg.cons _ _ rest => isDict rest

/-- The top-level keys of a dict, in order. -/
def ckeys : Cfg → List String
  | Cfg.cons k _ rest => k :: ckeys rest
  | _ => []

/-- Python dict lookup on a dict value. -/
def cget : Cfg → String → Option Cfg
  | Cfg.cons k v rest, key => if k = key then some v else cget rest key
  | _, _ => none

/-- Python dict assignment on a dict value: replace the first entry with the
key in place, else append a new entry at the end. -/
def cset : Cfg → String → Cfg → Cfg
  | Cfg.cons k v rest, key, w =>
    if k = key then Cfg.cons k w rest else Cfg.cons k v (cset rest key w)
  | _, key, w => Cfg.cons key w Cfg.nil

/-- Concatenation of entry spines. -/
def cappend : Cfg → Cfg → Cfg
  | Cfg.cons k v rest, b => Cfg.cons k v (cappend rest b)
  | _, b => b

theorem cget_eq_none_iff (m : Cfg) (k : String) :
    cget m k = none ↔ k ∉ ckeys m := by
  induction m with
  | atom s => simp [cget, ckeys]
  | nil => simp [cget, ckeys]
  | cons k2 v rest ihv ih =>
    simp only [cget, ckeys, List.mem_cons]
    by_cases hk : k2 = k
    · simp [hk]
    · simp only [hk, if_false, ih]
      constructor
      · intro h hc
        rcases hc with hc | hc
        · exact hk hc.symm
        · exact h hc
      · intro h
        exact fun hc => h (Or.inr hc)

theorem cget_cappend (a : Cfg) (ha : isDict a = true) (b : Cfg)
    (k : String) : cget (cappend a b) k = orO (cget a k) (cget b k) := by
  induction a with
  | atom s => simp [isDict] at ha
  | nil => simp [cappend, cget]
  | cons k2 v rest ihv ih =>
    simp only [cappend, cget]
    by_cases hk : k2 = k
    · simp [hk]
    · simp only [hk, if_false]
      exact ih (by simpa [isDict] using ha)

theorem cappend_nil (a : Cfg) (ha : isDict a = true) :
    cappend a Cfg.nil = a := by
  induction a with
  | atom s => simp [isDict] at ha
  | nil => rfl
  | cons k v rest ihv ih =>
    simp only [cappend]
    rw [ih (by simpa [isDict] using ha)]

theorem cappend_isDict (a b : Cfg) (hb : isDict b = true) :
    isDict (cappend a b) = true := by
  induction a with
  | atom s => simpa [cappend] using hb
  | nil => simpa [cappend] using hb
  | cons k v rest ihv ih => simpa [cappend, isDict] using ih

theorem cappend_assoc (a b c : Cfg) (ha : isDict a = true) :
    cappend (cappend a b) c = cappend a (cappend b c) := by
  induction a with
  | atom s => simp [isDict] at ha
  | nil => simp [cappend]
  | cons k v rest ihv ih =>
    simp only [cappend]
    rw [ih (by simpa [isDict] using ha)]

theorem cset_absent (m : Cfg) (hm : isDict m = true) (k : String) (x : Cfg)
    (h : cget m k = none) : cset m k x = cappend m (Cfg.cons k x Cfg.nil) := by
  induction m with
  | atom s => simp [isDict] at hm
  | nil => rfl
  | cons k2 v rest ihv ih =>
    simp only [cget] at h
    by_cases hk : k2 = k
    · rw [if_pos hk] at h
      cases h
    · rw [if_neg hk] at h
      simp only [cset, cappend, hk, if_false]
      rw [ih (by simpa [isDict] using hm) h]

theorem cset_cset (m : Cfg) (k : String) (x y : Cfg) :
    cset (cset m k x) k y = cset m k y := by
  induction m with
  | atom s => simp [cset]
  | nil => simp [cset]
  | cons k2 v rest ihv ih =>
    simp only [cset]
    by_cases hk : k2 = k
    · simp [hk, cset]
    · simp [hk, cset, ih]

theorem cset_of_cget (m : Cfg) (k : String) (v : Cfg)
    (h : cget m k = some v) : cset m k v = m := by
  induction m with
  | atom s => cases h
  | nil => cases h
  | cons k2 w rest ihv ih =>
    simp only [cget] at h
    simp only [cset]
    by_cases hk : k2 = k
    · rw [if_pos hk] at h
      rw [if_pos hk]
      cases h
      rfl
    · rw [if_neg hk] at h
      rw [if_neg hk, ih h]

theorem cget_cset_self (m : Cfg) (k : String) (v : Cfg) :
    cget (cset m k v) k = some v := by
  induction m with
  | atom s => simp [cset, cget]
  | nil => simp [cset, cget]
  | cons k2 w rest ihv ih =>
    simp only [cset]
    by_cases hk : k2 = k
    · simp [hk, cget]
    · simp [hk, cget, ih]

theorem cset_isDict (m : Cfg) (hm : isDict m = true) (k : String) (v : Cfg) :
    isDict (cset m k v) = true := by
  induction m with
  | atom s => simp [isDict] at hm
  | nil => simp [cset, isDict]
  | cons k2 w rest ihv ih =>
    simp only [cset]
    by_cases hk : k2 = k
    · simpa [isDict, hk] using hm
    · simp only [hk, if_false, isDict]
      exact ih (by simpa [isDict] using hm)

/-! ### Splitting and joining keys on a separator -/

/-- Is the first list a prefix of the second? -/
def isPre : List Char → List Char → Bool
  | [], _ => true
  | _ :: _, [] => false
  | a :: as, b :: bs => a == b && isPre as bs

/-- Greedy left-to-right non-overlapping split on a separator substring,
the semantics of Python `str.split(sep)` (for non-empty `sep`) on the
character list; the fuel argument (any bound on the length) makes the
recursion structural. -/
def splitFuel (sep : List Char) : Nat → List Char → List (List Char)
  | _, [] => [[]]
  | 0, l => [l]
  | Nat.succ f, c :: rest =>
    if decide (sep ≠ []) && isPre sep (c :: rest) then
      [] :: splitFuel sep f ((c :: rest).drop sep.length)
    else
      match splitFuel sep f rest with
      | [] => [[c]]
      | g :: gs => (c :: g) :: gs

/-- Python `str.split(sep)` on character lists. -/
def splitList (sep l : List Char) : List (List Char) :=
  splitFuel sep l.length l

/-- The repo's splitter `k.split(sep)` (utils.py `_unflatten_dict`). -/
def splitKey (sep k : String) : List String :=
  (splitList sep.data k.data).map (fun cs => String.mk cs)

/-- The repo's reducer (utils.py `_flatten_dict`):
`f"{k1}{sep}{k2}" if k1 else str(k2)`. -/
def reducer (sep k1 k2 : String) : String :=
  if k1 = "" then k2 else k1 ++ sep ++ k2

/-- The separator-joined key of a key path: the reducer folded from the
empty parent key, as the flatten walk does. -/
def joinKeys (sep : String) (p : List String) : String :=
  p.foldl (reducer sep) ""

/-- Separator-joined concatenation of path components (character level). -/
def joinData (sep : List Char) : List (List Char) → List Char
  | [] => []
  | [p] => p
  | p :: q :: rest => p ++ sep ++ joinData sep (q :: rest)

theorem isPre_append_self : ∀ s t : List Char, isPre s (s ++ t) = true := by
  intro s
  induction s with
  | nil => intro t; rfl
  | cons c s' ih => intro t; simp [isPre, ih]

theorem isPre_head (s0 c : Char) (s' l : List Char)
    (h : isPre (s0 :: s') (c :: l) = true) : s0 = c := by
  simp only [isPre, Bool.and_eq_true, beq_iff_eq] at h
  exact h.1

theorem splitFuel_mono (sep : List Char) :
    ∀ (f f' : Nat) (l : List Char), l.length ≤ f → l.length ≤ f' →
      splitFuel sep f l = splitFuel sep f' l := by
  intro f
  induction f with
  | zero =>
    intro f' l hf _
    cases l with
    | nil => cases f' <;> rfl
    | cons c rest => simp at hf
  | succ f ihf =>
    intro f' l hf hf'
    cases l with
    | nil => cases f' <;> rfl
    | cons c rest =>
      cases f' with
      | zero => simp at hf'
      | succ f'' =>
        simp only [splitFuel]
        by_cases hcond : (decide (sep ≠ []) && isPre sep (c :: rest)) = true
        · rw [if_pos hcond, if_pos hcond]
          have hsep : sep ≠ [] := by
            simp only [Bool.and_eq_true, decide_eq_true_eq] at hcond
            exact hcond.1
          have hlen : ((c :: rest).drop sep.length).length ≤ f := by
            rw [List.length_drop]
            have : 1 ≤ sep.length := by
              cases sep with
              | nil => exact absurd rfl hsep
              | cons a as => simp
            simp only [List.length_cons] at hf ⊢
            omega
          have hlen' : ((c :: rest).drop sep.length).length ≤ f'' := by
            rw [List.length_drop]
            have : 1 ≤ sep.length := by
              cases sep with
              | nil => exact absurd rfl hsep
              | cons a as => simp
            simp only [List.length_cons] at hf' ⊢
            omega
          rw [ihf f'' _ hlen hlen']
        · rw [if_neg hcond, if_neg hcond]
          have hlen : rest.length ≤ f := by
            simp only [List.length_cons] at hf; omega
          have hlen' : rest.length ≤ f'' := by
            simp only [List.length_cons] at hf'; omega
          rw [ihf f'' rest hlen hlen']

theorem splitFuel_no_sep (sep : List Char) :
    ∀ (f : Nat) (a : List Char), a.length ≤ f →
      (∀ c ∈ sep, c ∉ a) → splitFuel sep f a = [a] := by
  intro f
  induction f with
  | zero =>
    intro a ha _
    cases a with
    | nil => rfl
    | cons c rest => simp at ha
  | succ f ihf =>
    intro a ha hdisj
    cases a with
    | nil => rfl
    | cons c rest =>
      simp only [splitFuel]
      rw [if_neg]
      · rw [ihf rest (by simp only [List.length_cons] at ha; omega)
          (fun ch hch hmem => hdisj ch hch (List.mem_cons_of_mem c hmem))]
      · intro hcond
        simp only [Bool.and_eq_true, decide_eq_true_eq] at hcond
        obtain ⟨hsep, hpre⟩ := hcond
        cases sep with
        | nil => exact hsep rfl
        | cons s0 s' =>
          have hc : s0 = c := isPre_head s0 c s' rest hpre
          exact hdisj s0 (List.mem_cons_self s0 s') (hc ▸ List.mem_cons_self c rest)

theorem splitFuel_append (sep : List Char) (hsep : sep ≠ []) :
    ∀ (a : List Char) (f : Nat) (b : List Char), (∀ c ∈ sep, c ∉ a) →
      (a ++ sep ++ b).length ≤ f →
      splitFuel sep f (a ++ sep ++ b) = a :: splitList sep b := by
  have hseplen : 1 ≤ sep.length := by
    cases sep with
    | nil => exact absurd rfl hsep
    | cons a as => simp
  intro a
  induction a with
  | nil =>
    intro f b _ hf
    cases hs : sep with
    | nil => exact absurd hs hsep
    | cons s0 s' =>
      subst hs
      cases f with
      | zero => simp at hf
      | succ f' =>
        have hform : ([] : List Char) ++ (s0 :: s') ++ b =
            s0 :: (s' ++ b) := by simp
        rw [hform]
        simp only [splitFuel]
        rw [if_pos]
        · have hdrop : (s0 :: (s' ++ b)).drop (s0 :: s').length = b := by
            have : s0 :: (s' ++ b) = (s0 :: s') ++ b := by simp
            rw [this]
            exact List.drop_left (s0 :: s') b
          rw [hdrop]
          have hblen : b.length ≤ f' := by
            simp only [List.length_append, List.length_cons] at hf
            omega
          rw [splitFuel_mono (s0 :: s') f' b.length b hblen (le_refl _)]
          rfl
        · simp only [Bool.and_eq_true, decide_eq_true_eq]
          refine ⟨(by intro hc; cases hc), ?_⟩
          have : s0 :: (s' ++ b) = (s0 :: s') ++ b := by simp
          rw [this]
          exact isPre_append_self (s0 :: s') b
  | cons c a' iha =>
    intro f b hdisj hf
    have hform : (c :: a') ++ sep ++ b = c :: (a' ++ sep ++ b) := by simp
    rw [hform]
    cases f with
    | zero => simp at hf
    | succ f' =>
      simp only [splitFuel]
      rw [if_neg]
      · rw [iha f' b
          (fun ch hch hmem => hdisj ch hch (List.mem_cons_of_mem c hmem))
          (by simp only [List.length_append, List.length_cons] at hf ⊢; omega)]
      · intro hcond
        simp only [Bool.and_eq_true, decide_eq_true_eq] at hcond
        obtain ⟨_, hpre⟩ := hcond
        cases sep with
        | nil => exact hsep rfl
        | cons s0 s' =>
          have hc : s0 = c := isPre_head s0 c s' _ hpre
          exact hdisj s0 (List.mem_cons_self s0 s')
            (hc ▸ List.mem_cons_self c _)

theorem joinData_glue (sep x y : List Char) (rest : List (List Char)) :
    joinData sep ((x ++ sep ++ y) :: rest) =
      x ++ sep ++ joinData sep (y :: rest) := by
  cases rest with
  | nil => rfl
  | cons r rs => simp [joinData, List.append_assoc]

theorem splitList_joinData (sep : List Char) (hsep : sep ≠ []) :
    ∀ ps : List (List Char), (∀ p ∈ ps, ∀ c ∈ sep, c ∉ p) → ps ≠ [] →
      splitList sep (joinData sep ps) = ps := by
  intro ps
  induction ps with
  | nil => intro _ h; exact absurd rfl h
  | cons p ps ih =>
    intro hdisj _
    cases ps with
    | nil =>
      show splitList sep p = [p]
      exact splitFuel_no_sep sep p.length p (le_refl _)
        (fun c hc => hdisj p (List.mem_cons_self p []) c hc)
    | cons q ps' =>
      have hjoin : joinData sep (p :: q :: ps') =
          p ++ sep ++ joinData sep (q :: ps') := rfl
      rw [hjoin]
      show splitFuel sep (p ++ sep ++ joinData sep (q :: ps')).length
        (p ++ sep ++ joinData sep (q :: ps')) = p :: q :: ps'
      rw [splitFuel_append sep hsep p _ _
        (fun c hc => hdisj p (List.mem_cons_self p _) c hc) (le_refl _)]
      rw [ih (fun x hx c hc => hdisj x (List.mem_cons_of_mem p hx) c hc)
        (by intro hc; cases hc)]

theorem string_data_append (a b : String) :
    (a ++ b).data = a.data ++ b.data := rfl

theorem string_mk_data (s : String) : String.mk s.data = s := rfl

theorem string_ne_empty_data (s : String) (h : s ≠ "") : s.data ≠ [] := by
  intro hd
  apply h
  rw [← string_mk_data s, hd]

theorem foldl_reducer_data (sep : String) :
    ∀ (ks : List String) (acc : String), acc ≠ "" →
      (ks.foldl (reducer sep) acc).data =
        joinData sep.data (acc.data :: ks.map String.data) := by
  intro ks
  induction ks with
  | nil => intro acc _; rfl
  | cons k ks ih =>
    intro acc hacc
    rw [List.foldl_cons]
    have hred : reducer sep acc k = acc ++ sep ++ k := by
      unfold reducer
      rw [if_neg hacc]
    rw [hred]
    have hne : acc ++ sep ++ k ≠ "" := by
      intro hc
      apply string_ne_empty_data acc hacc
      have : (acc ++ sep ++ k).data = [] := by rw [hc]
      rw [string_data_append, string_data_append] at this
      exact List.append_eq_nil.mp (List.append_eq_nil.mp this).1 |>.1
    rw [ih _ hne, string_data_append, string_data_append]
    rw [joinData_glue]
    rfl

theorem joinKeys_data (sep k : String) (ks : List String) (hk : k ≠ "") :
    (joinKeys sep (k :: ks)).data =
      joinData sep.data (k.data :: ks.map String.data) := by
  unfold joinKeys
  rw [List.foldl_cons]
  have hred : reducer sep "" k = k := by unfold reducer; rw [if_pos rfl]
  rw [hred]
  exact foldl_reducer_data sep ks k hk

theorem map_mk_map_data (l : List String) :
    (l.map String.data).map (fun cs => String.mk cs) = l := by
  induction l with
  | nil => rfl
  | cons x xs ih => simp only [List.map_cons, ih, string_mk_data]

/-- Splitting the reducer-joined key of a path recovers the path, provided
the separator is non-empty and no component is empty or contains a
character of the separator. -/
theorem splitKey_joinKeys (sep : String) (hsep : sep ≠ "") (k : String)
    (ks : List String)
    (hall : ∀ x ∈ k :: ks, x ≠ "" ∧ ∀ c ∈ sep.data, c ∉ x.data) :
    splitKey sep (joinKeys sep (k :: ks)) = k :: ks := by
  unfold splitKey
  rw [joinKeys_data sep k ks (hall k (List.mem_cons_self k ks)).1]
  rw [splitList_joinData sep.data (string_ne_empty_data sep hsep)
    (k.data :: ks.map String.data) ?hdisj (by intro hc; cases hc)]
  · show String.mk k.data :: (ks.map String.data).map (fun cs => String.mk cs)
      = k :: ks
    rw [string_mk_data, map_mk_map_data]
  case hdisj =>
    intro p hp c hc
    rcases List.mem_cons.mp hp with rfl | hp
    · exact (hall k (List.mem_cons_self k ks)).2 c hc
    · rcases List.mem_map.mp hp with ⟨x, hx, rfl⟩
      exact (hall x (List.mem_cons_of_mem k hx)).2 c hc

/-! ### Recursive flatten and unflatten -/

/-- The key paths of a nested dict with their leaf values, in depth-first
entry order (the traversal order of the flatten walk); empty sub-dicts
contribute nothing, as in the library. -/
def flattenPaths : Cfg → List (List String × String)
  | Cfg.cons k (Cfg.atom s) rest => ([k], s) :: flattenPaths rest
  | Cfg.cons k v rest =>
    ((flattenPaths v).map (fun pr => (k :: pr.1, pr.2))) ++ flattenPaths rest
  | _ => []

/-- Modelled from the spec: `flatten(mapping, recursive=True, separator)` of
the external flatten_dict dependency "produces a single-level mapping whose
keys are separator-joined paths through the input's nested structure", with
the repository's reducer joining the path. -/
def _flatten_dict (sep : String) (d : Cfg) : List (String × String) :=
  (flattenPaths d).map (fun pr => (joinKeys sep pr.1, pr.2))

/-- One insertion step of the unflatten rebuild: set the leaf value at the
key path, descending into (or creating) intermediate dicts. -/
def insertPath : Cfg → List String → String → Cfg
  | acc, [], _ => acc
  | acc, [k], v => cset acc k (Cfg.atom v)
  | acc, k :: k2 :: rest, v =>
    match cget acc k with
    | some (Cfg.cons k3 v3 r3) =>
      cset acc k (insertPath (Cfg.cons k3 v3 r3) (k2 :: rest) v)
    | _ => cset acc k (insertPath Cfg.nil (k2 :: rest) v)

/-- Folding path insertions over a path-value sequence. -/
def insertAll (acc : Cfg) (l : List (List String × String)) : Cfg :=
  l.foldl (fun acc pr => insertPath acc pr.1 pr.2) acc

/-- Modelled from the spec: `unflatten(mapping, separator)` of the external
flatten_dict dependency "splits each key on the separator and rebuilds
nested structure", with the repository's splitter, inserting the entries in
order. -/
def _unflatten_dict (sep : String) (l : List (String × String)) : Cfg :=
  l.foldl (fun acc pr => insertPath acc (splitKey sep pr.1) pr.2) Cfg.nil

/-- Is this value a dict or a scalar (i.e. not a broken spine)? -/
def isVal : Cfg → Bool
  | Cfg.atom _ => true
  | x => isDict x

/-- Well-formedness of a configuration value for separator `sep`: along any
dict spine, keys are non-empty, contain no character of the separator, and
are unique at their level; no nested value is an empty dict; entry values
are scalars or well-formed dicts. -/
def wfCfg (sep : String) : Cfg → Bool
  | Cfg.cons k v rest =>
    decide (k ≠ "") &&
    sep.data.all (fun c => decide (c ∉ k.data)) &&
    decide (k ∉ ckeys rest) &&
    decide (v ≠ Cfg.nil) && isVal v && wfCfg sep v && wfCfg sep rest
  | _ => true

theorem wfCfg_cons_elim (sep k : String) (v rest : Cfg)
    (h : wfCfg sep (Cfg.cons k v rest) = true) :
    k ≠ "" ∧ (∀ c ∈ sep.data, c ∉ k.data) ∧ k ∉ ckeys rest ∧
    v ≠ Cfg.nil ∧ isVal v = true ∧ wfCfg sep v = true ∧
    wfCfg sep rest = true := by
  simp only [wfCfg, Bool.and_eq_true, decide_eq_true_eq,
    List.all_eq_true] at h
  exact ⟨h.1.1.1.1.1.1, h.1.1.1.1.1.2, h.1.1.1.1.2, h.1.1.1.2, h.1.1.2,
    h.1.2, h.2⟩

theorem flattenPaths_wf (sep : String) (d : Cfg) :
    wfCfg sep d = true →
    ∀ pr ∈ flattenPaths d, pr.1 ≠ [] ∧
      ∀ k ∈ pr.1, k ≠ "" ∧ ∀ c ∈ sep.data, c ∉ k.data := by
  induction d with
  | atom s => intro _ pr hpr; simp [flattenPaths] at hpr
  | nil => intro _ pr hpr; simp [flattenPaths] at hpr
  | cons k v rest ihv ihr =>
    intro hwf pr hpr
    obtain ⟨hk, hsepk, _, hvnil, _, hwv, hwr⟩ := wfCfg_cons_elim sep k v rest hwf
    cases v with
    | atom s =>
      rcases List.mem_cons.mp hpr with rfl | hpr
      · refine ⟨(by intro hc; cases hc), ?_⟩
        intro k' hk'
        rcases List.mem_cons.mp hk' with rfl | hk'
        · exact ⟨hk, hsepk⟩
        · cases hk'
      · exact ihr hwr pr hpr
    | nil => exact absurd rfl hvnil
    | cons k2 v2 r2 =>
      have hfp : flattenPaths (Cfg.cons k (Cfg.cons k2 v2 r2) rest) =
          ((flattenPaths (Cfg.cons k2 v2 r2)).map
            (fun pr => (k :: pr.1, pr.2))) ++
          flattenPaths rest := rfl
      rw [hfp] at hpr
      rcases List.mem_append.mp hpr with hpr | hpr
      · rcases List.mem_map.mp hpr with ⟨pr', hpr', rfl⟩
        obtain ⟨hne', hcomp'⟩ := ihv hwv pr' hpr'
        refine ⟨(by intro hc; cases hc), ?_⟩
        intro k' hk'
        rcases List.mem_cons.mp hk' with rfl | hk'
        · exact ⟨hk, hsepk⟩
        · exact hcomp' k' hk'
      · exact ihr hwr pr hpr

theorem flattenPaths_ne_nil (sep : String) (d : Cfg) :
    wfCfg sep d = true → d ≠ Cfg.nil → isDict d = true →
    flattenPaths d ≠ [] := by
  induction d with
  | atom s => intro _ _ hd; simp [isDict] at hd
  | nil => intro _ h _; exact absurd rfl h
  | cons k v rest ihv ihr =>
    intro hwf _ _
    obtain ⟨_, _, _, hvnil, hval, hwv, _⟩ := wfCfg_cons_elim sep k v rest hwf
    cases v with
    | atom s => simp [flattenPaths]
    | nil => exact absurd rfl hvnil
    | cons k2 v2 r2 =>
      have hfp : flattenPaths (Cfg.cons k (Cfg.cons k2 v2 r2) rest) =
          ((flattenPaths (Cfg.cons k2 v2 r2)).map
            (fun pr => (k :: pr.1, pr.2))) ++
          flattenPaths rest := rfl
      rw [hfp]
      have hnn : flattenPaths (Cfg.cons k2 v2 r2) ≠ [] :=
        ihv hwv (by intro hc; cases hc) (by simpa [isVal] using hval)
      intro hc
      rcases List.append_eq_nil.mp hc with ⟨h1, _⟩
      exact hnn (List.map_eq_nil_iff.mp h1)

theorem insertPath_isDict (path : List String) (v : String) (acc : Cfg)
    (ha : isDict acc = true) : isDict (insertPath acc path v) = true := by
  match path with
  | [] => exact ha
  | [k] => exact cset_isDict acc ha k (Cfg.atom v)
  | k :: k2 :: rest =>
    simp only [insertPath]
    cases hg : cget acc k with
    | none => exact cset_isDict acc ha k _
    | some sub =>
      cases sub with
      | atom s => exact cset_isDict acc ha k _
      | nil => exact cset_isDict acc ha k _
      | cons k3 v3 r3 => exact cset_isDict acc ha k _

/-- Inserting a block of paths that share the head key `k` into an
accumulator already holding a dict `sub` at `k` drills every insertion into
`sub`. -/
theorem insertAll_cons_key (k : String) :
    ∀ (ps : List (List String × String)) (acc sub : Cfg),
      cget acc k = some sub → isDict sub = true →
      (∀ pr ∈ ps, pr.1 ≠ []) →
      insertAll acc (ps.map (fun pr => (k :: pr.1, pr.2))) =
        cset acc k (insertAll sub ps) := by
  intro ps
  induction ps with
  | nil =>
    intro acc sub hget _ _
    show acc = cset acc k sub
    rw [cset_of_cget acc k sub hget]
  | cons pr ps ih =>
    intro acc sub hget hsub hne
    cases hpath : pr.1 with
    | nil => exact absurd hpath (hne pr (List.mem_cons_self pr ps))
    | cons kk tt =>
      have hstep : insertAll acc
          ((pr :: ps).map (fun pr => (k :: pr.1, pr.2))) =
          insertAll (insertPath acc (k :: pr.1) pr.2)
            (ps.map (fun pr => (k :: pr.1, pr.2))) := rfl
      rw [hstep]
      have hins : insertPath acc (k :: pr.1) pr.2 =
          cset acc k (insertPath sub pr.1 pr.2) := by
        rw [hpath]
        simp only [insertPath]
        rw [hget]
        cases sub with
        | atom s => simp [isDict] at hsub
        | nil => rfl
        | cons k3 v3 r3 => rfl
      rw [hins]
      have hget' : cget (cset acc k (insertPath sub pr.1 pr.2)) k =
          some (insertPath sub pr.1 pr.2) := cget_cset_self acc k _
      have hsub' : isDict (insertPath sub pr.1 pr.2) = true :=
        insertPath_isDict pr.1 pr.2 sub hsub
      rw [ih (cset acc k (insertPath sub pr.1 pr.2))
        (insertPath sub pr.1 pr.2) hget' hsub'
        (fun q hq => hne q (List.mem_cons_of_mem pr hq))]
      rw [cset_cset]
      rfl

/-- Replaying the flattened paths of a well-formed dict into an accumulator
with disjoint keys appends the dict to the accumulator, entry for entry. -/
theorem insertAll_flattenPaths (sep : String) :
    ∀ (d : Cfg), isDict d = true → wfCfg sep d = true →
    ∀ acc : Cfg, isDict acc = true →
      (∀ k ∈ ckeys d, cget acc k = none) →
      insertAll acc (flattenPaths d) = cappend acc d := by
  intro d
  induction d with
  | atom s => intro hd; simp [isDict] at hd
  | nil =>
    intro _ _ acc hacc _
    show acc = cappend acc Cfg.nil
    rw [cappend_nil acc hacc]
  | cons k v rest ihv ihr =>
    intro hd hwf acc hacc hdisj
    obtain ⟨_, _, hdup, hvnil, hval, hwv, hwr⟩ :=
      wfCfg_cons_elim sep k v rest hwf
    have hrest : isDict rest = true := by simpa [isDict] using hd
    have hgetk : cget acc k = none :=
      hdisj k (by simp [ckeys])
    cases v with
    | atom s =>
      have hstep : insertAll acc (flattenPaths (Cfg.cons k (Cfg.atom s)
          rest)) = insertAll (cset acc k (Cfg.atom s))
          (flattenPaths rest) := rfl
      rw [hstep, cset_absent acc hacc k (Cfg.atom s) hgetk]
      rw [ihr hrest hwr _
        (cappend_isDict acc _ (by simp [isDict]))
        ?hdisj2]
      · rw [cappend_assoc acc _ rest hacc]
        rfl
      case hdisj2 =>
        intro k' hk'
        have h1 : cget acc k' = none :=
          hdisj k' (by simp only [ckeys, List.mem_cons]; exact Or.inr hk')
        have hne : ¬ (k = k') := fun hc => hdup (hc ▸ hk')
        rw [cget_cappend acc hacc _ k', h1]
        simp [cget, hne]
    | nil => exact absurd rfl hvnil
    | cons k2 v2 r2 =>
      have hvdict : isDict (Cfg.cons k2 v2 r2) = true := by
        simpa [isVal] using hval
      have hfpne : flattenPaths (Cfg.cons k2 v2 r2) ≠ [] :=
        flattenPaths_ne_nil sep _ hwv (by intro hc; cases hc) hvdict
      cases hfp : flattenPaths (Cfg.cons k2 v2 r2) with
      | nil => exact absurd hfp hfpne
      | cons pr0 prs =>
        have hpaths := flattenPaths_wf sep (Cfg.cons k2 v2 r2) hwv
        rw [hfp] at hpaths
        have hstep : insertAll acc (flattenPaths (Cfg.cons k
            (Cfg.cons k2 v2 r2) rest)) =
            insertAll (insertAll acc ((pr0 :: prs).map
              (fun pr => (k :: pr.1, pr.2)))) (flattenPaths rest) := by
          show insertAll acc
            (((flattenPaths (Cfg.cons k2 v2 r2)).map
              (fun pr => (k :: pr.1, pr.2))) ++ flattenPaths rest) = _
          rw [hfp]
          unfold insertAll
          rw [List.foldl_append]
        rw [hstep]
        -- first insertion creates the submap at key k
        have hpr0ne : pr0.1 ≠ [] :=
          (hpaths pr0 (List.mem_cons_self pr0 prs)).1
        cases hpath0 : pr0.1 with
        | nil => exact absurd hpath0 hpr0ne
        | cons kk tt =>
          have hins0 : insertPath acc (k :: pr0.1) pr0.2 =
              cset acc k (insertPath Cfg.nil pr0.1 pr0.2) := by
            rw [hpath0]
            simp only [insertPath]
            rw [hgetk]
          have hmapstep : insertAll acc ((pr0 :: prs).map
              (fun pr => (k :: pr.1, pr.2))) =
              insertAll (cset acc k (insertPath Cfg.nil pr0.1 pr0.2))
                (prs.map (fun pr => (k :: pr.1, pr.2))) := by
            show insertAll (insertPath acc (k :: pr0.1) pr0.2)
                (prs.map (fun pr => (k :: pr.1, pr.2))) = _
            rw [hins0]
          rw [hmapstep]
          have hsub0 : isDict (insertPath Cfg.nil pr0.1 pr0.2) = true :=
            insertPath_isDict pr0.1 pr0.2 Cfg.nil rfl
          rw [insertAll_cons_key k prs _ _ (cget_cset_self acc k _) hsub0
            (fun q hq => (hpaths q (List.mem_cons_of_mem pr0 hq)).1)]
          rw [cset_cset]
          -- the inner replay rebuilds v
          have hinner : insertPath Cfg.nil pr0.1 pr0.2 =
              insertAll Cfg.nil [pr0] := rfl
          have hfold : insertAll (insertPath Cfg.nil pr0.1 pr0.2) prs =
              insertAll Cfg.nil (pr0 :: prs) := rfl
          rw [hfold, ← hfp]
          rw [ihv hvdict hwv Cfg.nil rfl (by intro k' _; rfl)]
          have hcapp : cappend Cfg.nil (Cfg.cons k2 v2 r2) =
              Cfg.cons k2 v2 r2 := rfl
          rw [hcapp]
          -- outer replay appends the rest
          rw [cset_absent acc hacc k _ hgetk]
          rw [ihr hrest hwr _
            (cappend_isDict acc _ (by simp [isDict]))
            ?hdisj3]
          · rw [cappend_assoc acc _ rest hacc]
            rfl
          case hdisj3 =>
            intro k' hk'
            have h1 : cget acc k' = none :=
              hdisj k'
                (by simp only [ckeys, List.mem_cons]; exact Or.inr hk')
            have hne : ¬ (k = k') := fun hc => hdup (hc ▸ hk')
            rw [cget_cappend acc hacc _ k', h1]
            simp [cget, hne]

theorem foldl_congr_mem {A B : Type} (l : List A) (f g : B → A → B) :
    ∀ (init : B), (∀ a ∈ l, ∀ acc, f acc a = g acc a) →
      l.foldl f init = l.foldl g init := by
  induction l with
  | nil => intro init _; rfl
  | cons a t ih =>
    intro init h
    rw [List.foldl_cons, List.foldl_cons, h a (List.mem_cons_self a t) init]
    exact ih _ (fun x hx acc => h x (List.mem_cons_of_mem a hx) acc)

/-- Claim C9, amended: for every string-keyed nested mapping without
separator collisions — non-empty separator; keys non-empty, free of
separator characters and unique per level; no empty nested dict —
`_unflatten_dict` inverts `_flatten_dict` (recursive flatten). -/
theorem claim_C9 (sep : String) (d : Cfg) (hsep : sep ≠ "")
    (hd : isDict d = true) (hwf : wfCfg sep d = true) :
    _unflatten_dict sep (_flatten_dict sep d) = d := by
  unfold _unflatten_dict _flatten_dict
  rw [List.foldl_map]
  have hcong : ∀ pr ∈ flattenPaths d, ∀ acc : Cfg,
      insertPath acc (splitKey sep (joinKeys sep pr.1)) pr.2 =
        insertPath acc pr.1 pr.2 := by
    intro pr hpr acc
    obtain ⟨hne, hcomp⟩ := flattenPaths_wf sep d hwf pr hpr
    cases hp : pr.1 with
    | nil => exact absurd hp hne
    | cons k ks =>
      rw [splitKey_joinKeys sep hsep k ks
        (fun x hx => hcomp x (hp ▸ hx))]
  have h1 := foldl_congr_mem (flattenPaths d)
    (fun acc pr => insertPath acc (splitKey sep (joinKeys sep pr.1)) pr.2)
    (fun acc pr => insertPath acc pr.1 pr.2) Cfg.nil
    (fun pr hpr acc => hcong pr hpr acc)
  have h2 := insertAll_flattenPaths sep d hd hwf Cfg.nil rfl (fun k _ => rfl)
  exact h1.trans h2

/-- The spec's own example template:
`{save_args: {registered_model_name: "model"}, type: "..."}`. -/
def cfg0 : Cfg :=
  Cfg.cons "save_args"
    (Cfg.cons "registered_model_name" (Cfg.atom "model") Cfg.nil)
    (Cfg.cons "type" (Cfg.atom "MlflowModelLoggerDataSet") Cfg.nil)

theorem claim_C9_witness :
    (("." : String) ≠ "" ∧ isDict cfg0 = true ∧ wfCfg "." cfg0 = true) ∧
    _unflatten_dict "." (_flatten_dict "." cfg0) = cfg0 :=
  ⟨⟨by decide, by decide, by decide⟩,
   claim_C9 "." cfg0 (by decide) (by decide) (by decide)⟩

/-- A Python dict key: a string or a number.  The repo's reducer
(utils.py: `f"{k1}{sep}{k2}" if k1 else str(k2)`) stringifies keys when
flattening, and the splitter `k.split(sep)` returns strings, so numeric
keys come back as strings after a round trip. -/
inductive PyKey where
  | s (v : String)
  | n (v : Int)
deriving DecidableEq

/-- `str(k)`. -/
def pyStr : PyKey → String
  | PyKey.s v => v
  | PyKey.n v => toString v

/-- Modelled from the spec and utils.py: flattening a single-level mapping
applies the reducer with an empty parent key to each key, i.e. `str(k2)`:
keys are stringified, values kept, order preserved. -/
def flattenShallow (d : List (PyKey × String)) : List (String × String) :=
  d.map (fun p => (pyStr p.1, p.2))

/-- Modelled from the spec: unflattening a single-level mapping whose keys
contain no separator yields one-element paths, so it rebuilds the same
single-level mapping — with string keys, as `split` returns strings. -/
def unflattenShallow (l : List (String × String)) : List (PyKey × String) :=
  l.map (fun p => (PyKey.s p.1, p.2))

/-- Counterexample to claim C9 as stated: the numeric-keyed mapping
`{1: "v"}` flattens to `{"1": "v"}` (the reducer stringifies via `str`),
and unflattening returns the STRING-keyed `{"1": "v"}`, which is not equal
to the original mapping — the round trip fails for numeric keys. -/
theorem claim_C9_counterexample :
    unflattenShallow (flattenShallow [(PyKey.n 1, "v")]) =
      [(PyKey.s "1", "v")] ∧
    unflattenShallow (flattenShallow [(PyKey.n 1, "v")]) ≠
      [(PyKey.n 1, "v")] := by
  refine ⟨rfl, ?_⟩
  decide

/-! ## `_new_child_dataset`: the dynamic child-dataset factory -/

/-- Python `"/".join(parts)`. -/
def strJoin (sep : String) : List String → String
  | [] => ""
  | [x] => x
  | x :: y :: rest => x ++ sep ++ strJoin sep (y :: rest)

/-- `MlflowPartitionedDataSet._subname`:
`"/".join([part for part in [partition, suffix] if bool(part)])` — the
slash-join of partition and suffix with empty (falsy) fragments dropped. -/
def _subname (partition suffix : String) : String :=
  strJoin "/" (([partition, suffix]).filter (fun part => decide (part ≠ "")))

/-- The loop `for param in self._dynamic_parameters: if param in config:
config[param] = self._subname(child_name, config[param])` over the
flattened configuration. -/
def substDynamic (params : List String) (child : String)
    (cfg : List (String × String)) : List (String × String) :=
  params.foldl (fun c param =>
    match getEntry c param with
    | some v => setEntry c param (_subname child v)
    | none => c) cfg

/-- `{**a, **b}` on nested dict values, part 1: the entries of `a` in
order, with values overridden by `b` where `b` has the key. -/
def cmergeLeft : Cfg → Cfg → Cfg
  | Cfg.cons k v rest, b =>
    Cfg.cons k
      (match cget b k with
       | some w => w
       | none => v)
      (cmergeLeft rest b)
  | _, _ => Cfg.nil

/-- `{**a, **b}` part 2: the entries of `b` whose keys `a` lacks. -/
def cmergeRight (a : Cfg) : Cfg → Cfg
  | Cfg.cons k v rest =>
    if (cget a k).isSome then cmergeRight a rest
    else Cfg.cons k v (cmergeRight a rest)
  | _ => Cfg.nil

/-- Python dict merge `{**a, **b}` (overrides win, insertion order of `a`
then new keys of `b`). -/
def cmerge (a b : Cfg) : Cfg := cappend (cmergeLeft a b) (cmergeRight a b)

/-- The mutable state of an `MlflowPartitionedDataSet` relevant to the
factory: the stored template configuration (`self._dataset_config`) and the
dynamic-parameter set. -/
structure PartitionedDataSetState where
  dataset_config : Cfg
  dynamic_parameters : List String
deriving DecidableEq

/-- The flattened per-partition configuration after dynamic-parameter
substitution, as built inside `_new_child_dataset`. -/
def newChildConfigFlat (ds : PartitionedDataSetState) (child_name : String)
    (extra : Cfg) : List (String × String) :=
  substDynamic ds.dynamic_parameters child_name
    (_flatten_dict "." (cmerge ds.dataset_config extra))

/-- `MlflowPartitionedDataSet._new_child_dataset`: flattens the template
merged with `extra`, rewrites the dynamic parameters with the partition
name, unflattens, and instantiates (the built configuration stands for the
constructed dataset).  The body never assigns to the stored state, so the
state is returned unchanged. -/
def _new_child_dataset (ds : PartitionedDataSetState) (child_name : String)
    (extra : Cfg) : Cfg × PartitionedDataSetState :=
  (_unflatten_dict "." (newChildConfigFlat ds child_name extra), ds)

theorem cmergeLeft_isDict (a b : Cfg) : isDict (cmergeLeft a b) = true := by
  induction a with
  | atom s => rfl
  | nil => rfl
  | cons k v rest ihv ih => simpa [cmergeLeft, isDict] using ih

theorem cget_cmergeLeft (a b : Cfg) (k : String) :
    cget (cmergeLeft a b) k =
      match cget a k with
      | some v => some (match cget b k with
        | some w => w
        | none => v)
      | none => none := by
  induction a with
  | atom s => rfl
  | nil => rfl
  | cons k2 v rest ihv ih =>
    simp only [cmergeLeft, cget]
    by_cases hk : k2 = k
    · subst hk
      rw [if_pos rfl, if_pos rfl]
    · rw [if_neg hk, if_neg hk, ih]

theorem cget_cmergeRight (a b : Cfg) (k : String) :
    cget (cmergeRight a b) k =
      if (cget a k).isSome then none else cget b k := by
  induction b with
  | atom s =>
    simp only [cmergeRight, cget]
    split <;> rfl
  | nil =>
    simp only [cmergeRight, cget]
    split <;> rfl
  | cons k2 v rest ihv ih =>
    by_cases ha2 : (cget a k2).isSome = true
    · have hstep : cmergeRight a (Cfg.cons k2 v rest) =
          cmergeRight a rest := by
        simp only [cmergeRight]
        rw [if_pos ha2]
      rw [hstep, ih]
      by_cases hk : k2 = k
      · subst hk
        rw [if_pos ha2, if_pos ha2]
      · by_cases hak : (cget a k).isSome = true
        · rw [if_pos hak, if_pos hak]
        · rw [if_neg hak, if_neg hak]
          show cget rest k = cget (Cfg.cons k2 v rest) k
          simp only [cget]
          rw [if_neg hk]
    · have hstep : cmergeRight a (Cfg.cons k2 v rest) =
          Cfg.cons k2 v (cmergeRight a rest) := by
        simp only [cmergeRight]
        rw [if_neg ha2]
      rw [hstep]
      by_cases hk : k2 = k
      · subst hk
        show (if k2 = k2 then some v else cget (cmergeRight a rest) k2) = _
        rw [if_pos rfl, if_neg ha2]
        simp [cget]
      · show (if k2 = k then some v else cget (cmergeRight a rest) k) = _
        rw [if_neg hk, ih]
        by_cases hak : (cget a k).isSome = true
        · rw [if_pos hak, if_pos hak]
        · rw [if_neg hak, if_neg hak]
          show cget rest k = cget (Cfg.cons k2 v rest) k
          simp only [cget]
          rw [if_neg hk]

/-- Merging: the override dict wins on key conflicts, the template supplies
everything else. -/
theorem cget_cmerge (a b : Cfg) (k : String) :
    cget (cmerge a b) k = orO (cget b k) (cget a k) := by
  unfold cmerge
  rw [cget_cappend _ (cmergeLeft_isDict a b) _ k, cget_cmergeLeft,
    cget_cmergeRight]
  cases hga : cget a k with
  | some v =>
    cases hgb : cget b k with
    | some w => simp
    | none => simp
  | none =>
    cases hgb : cget b k with
    | some w => simp [hga]
    | none => simp [hga]

theorem cmerge_nil (a : Cfg) (ha : isDict a = true) :
    cmerge a Cfg.nil = a := by
  unfold cmerge
  have hleft : cmergeLeft a Cfg.nil = a := by
    induction a with
    | atom s => simp [isDict] at ha
    | nil => rfl
    | cons k v rest ihv ih =>
      simp only [cmergeLeft, cget]
      rw [ih (by simpa [isDict] using ha)]
  have hright : cmergeRight a Cfg.nil = Cfg.nil := rfl
  rw [hleft, hright, cappend_nil a ha]

theorem substDynamic_not_mem (params : List String) (child : String)
    (k : String) (hk : k ∉ params) :
    ∀ cfg, getEntry (substDynamic params child cfg) k = getEntry cfg k := by
  induction params with
  | nil => intro cfg; rfl
  | cons param rest ih =>
    intro cfg
    have hkp : k ≠ param := fun hc => hk (hc ▸ List.mem_cons_self param rest)
    have hkr : k ∉ rest := fun hc => hk (List.mem_cons_of_mem param hc)
    have hstep : substDynamic (param :: rest) child cfg =
        substDynamic rest child
          (match getEntry cfg param with
           | some v => setEntry cfg param (_subname child v)
           | none => cfg) := rfl
    rw [hstep, ih hkr]
    cases hg : getEntry cfg param with
    | some v => exact getEntry_setEntry_ne cfg param k _ hkp
    | none => rfl

theorem substDynamic_mem (child : String) (k : String) :
    ∀ (params : List String) (cfg : List (String × String)) (v : String),
      params.Nodup → k ∈ params → getEntry cfg k = some v →
      getEntry (substDynamic params child cfg) k =
        some (_subname child v) := by
  intro params
  induction params with
  | nil => intro cfg v _ hk; cases hk
  | cons param rest ih =>
    intro cfg v hnodup hk hget
    have hstep : substDynamic (param :: rest) child cfg =
        substDynamic rest child
          (match getEntry cfg param with
           | some w => setEntry cfg param (_subname child w)
           | none => cfg) := rfl
    rw [hstep]
    rcases List.mem_cons.mp hk with rfl | hkr
    · rw [hget]
      have hrest : k ∉ rest := (List.nodup_cons.mp hnodup).1
      rw [substDynamic_not_mem rest child k hrest]
      exact getEntry_setEntry_self cfg k _
    · have hkp : k ≠ param := by
        intro hc
        subst hc
        exact (List.nodup_cons.mp hnodup).1 hkr
      cases hg : getEntry cfg param with
      | some w =>
        exact ih _ v (List.nodup_cons.mp hnodup).2 hkr
          (by rw [getEntry_setEntry_ne cfg param k _ hkp]; exact hget)
      | none => exact ih _ v (List.nodup_cons.mp hnodup).2 hkr hget

/-- Claim C5: building the per-partition configuration merges the template
with the overrides (overrides winning on key conflicts, per `cget_cmerge`),
flattens, replaces the value `v` of every dynamic-parameter key present in
the flattened map with the join `partition/v` in which empty fragments are
dropped, leaves every non-dynamic key identical to the flattened merged
template (hence to the template itself when no override shadows it — with
no overrides the merge IS the template), and returns the stored state
unchanged (the template is never mutated). -/
theorem claim_C5 (ds : PartitionedDataSetState) (child : String)
    (extra : Cfg) (k v : String) :
    ((_new_child_dataset ds child extra).2 = ds) ∧
    (cget (cmerge ds.dataset_config extra) k =
      orO (cget extra k) (cget ds.dataset_config k)) ∧
    (extra = Cfg.nil → isDict ds.dataset_config = true →
      cmerge ds.dataset_config extra = ds.dataset_config) ∧
    (ds.dynamic_parameters.Nodup → k ∈ ds.dynamic_parameters →
      getEntry (_flatten_dict "." (cmerge ds.dataset_config extra)) k =
        some v →
      getEntry (newChildConfigFlat ds child extra) k =
        some (_subname child v)) ∧
    (k ∉ ds.dynamic_parameters →
      getEntry (newChildConfigFlat ds child extra) k =
        getEntry (_flatten_dict "." (cmerge ds.dataset_config extra)) k) ∧
    (_subname child "" = child ∧ _subname "" v = v ∧
      (child ≠ "" → v ≠ "" → _subname child v = child ++ "/" ++ v)) := by
  refine ⟨rfl, cget_cmerge ds.dataset_config extra k, ?_, ?_, ?_, ?_, ?_, ?_⟩
  · intro hextra hdict
    rw [hextra]
    exact cmerge_nil ds.dataset_config hdict
  · intro hnodup hk hget
    exact substDynamic_mem child k ds.dynamic_parameters _ v hnodup hk hget
  · intro hk
    exact substDynamic_not_mem ds.dynamic_parameters child k hk _
  · unfold _subname
    by_cases hc : child = ""
    · subst hc
      rfl
    · rw [show ([child, ""].filter (fun part => decide (part ≠ ""))) =
        [child] from by simp [hc]]
      rfl
  · unfold _subname
    by_cases hv : v = ""
    · subst hv
      rfl
    · rw [show (["", v].filter (fun part => decide (part ≠ ""))) =
        [v] from by simp [hv]]
      rfl
  · intro hc hv
    unfold _subname
    rw [show ([child, v].filter (fun part => decide (part ≠ ""))) =
      [child, v] from by simp [hc, hv]]
    rfl

/-- The factory state for the spec's example: template `cfg0` with dynamic
path `save_args.registered_model_name`. -/
def ds0 : PartitionedDataSetState :=
  ⟨cfg0, ["save_args.registered_model_name"]⟩

theorem claim_C5_witness :
    (ds0.dynamic_parameters.Nodup ∧
      "save_args.registered_model_name" ∈ ds0.dynamic_parameters ∧
      getEntry (_flatten_dict "." (cmerge ds0.dataset_config Cfg.nil))
        "save_args.registered_model_name" = some "model") ∧
    getEntry (newChildConfigFlat ds0 "a/b" Cfg.nil)
      "save_args.registered_model_name" = some (_subname "a/b" "model") ∧
    _subname "a/b" "model" = "a/b/model" :=
  ⟨⟨by decide, by decide, by decide⟩,
   (claim_C5 ds0 "a/b" Cfg.nil "save_args.registered_model_name"
      "model").2.2.2.1 (by decide) (by decide) (by decide),
   by decide⟩

end KedroMlflow
